import Mathlib

/-!
Shallow embedding of the CS-350 image-processing servers (the hw5 policy
server `server_pol.c` and the hw7 multi-image server `server_mimg.c`) and
proofs about their queueing, image-store, per-image ordering and output
serialisation behaviour.  Pure functions are translated directly; the
concurrent parts (per-image turn gate, outbound socket gate) are modelled
as small-step interleaving transition systems whose steps mirror the
statements of the C worker loop.
-/

set_option maxHeartbeats 1000000
set_option linter.unusedVariables false

/-- Timestamps as in `struct timespec`: seconds and nanoseconds. -/
structure Timespec where
  tv_sec : Nat
  tv_nsec : Nat
deriving DecidableEq

instance : Inhabited Timespec := ⟨⟨0, 0⟩⟩

/-- Modelled from the spec: `TSPEC_TO_DOUBLE` (from the missing `common.h`)
converts a timespec to a real-valued number of seconds used for length
comparisons and trace printing.  We use the exact total-nanosecond value,
which is order-equivalent to `tv_sec + tv_nsec/1e9` under exact arithmetic
(`tv_nsec < 1e9`). -/
def tspec_to_ns (t : Timespec) : Nat := t.tv_sec * 1000000000 + t.tv_nsec

/- Modelled from the spec: the operation-code enum of the missing `common.h`
(`REGISTER, ROTATE90CW, BLUR, SHARPEN, VERT_EDGES, HORIZ_EDGES, RETRIEVE`).
The codes are represented as numerals; only their distinctness matters. -/

def IMG_REGISTER : Nat := 0
def IMG_ROT90CLKW : Nat := 1
def IMG_BLUR : Nat := 2
def IMG_SHARPEN : Nat := 3
def IMG_VERTEDGES : Nat := 4
def IMG_HORIZEDGES : Nat := 5
def IMG_RETRIEVE : Nat := 6

/- Modelled from the spec: response acknowledgement codes of the missing
`common.h`; the hw5/hw6 sources use the literals 0 (completed) and
1 (rejected) directly. -/

def RESP_COMPLETED : Nat := 0
def RESP_REJECTED : Nat := 1

/-- Wire request header (`struct request` of the missing `common.h`; the
fields are exactly those read by the server sources). -/
structure Request where
  req_id : Nat
  req_timestamp : Timespec
  req_length : Timespec
  img_op : Nat
  overwrite : Bool
  img_id : Nat
deriving DecidableEq

instance : Inhabited Request := ⟨⟨0, default, default, 0, false, 0⟩⟩

/-- Wire response header (`struct response` of the missing `common.h`):
request id, image id and acknowledgement code. -/
structure Response where
  req_id : Nat
  ack : Nat
  img_id : Nat
deriving DecidableEq

instance : Inhabited Response := ⟨⟨0, 0, 0⟩⟩

namespace Hw7

/-- `struct request_meta` of `server_mimg.c`: the wire request plus the three
timestamps stamped by dispatcher and worker. -/
structure RequestMeta where
  request : Request
  receipt_timestamp : Timespec
  start_timestamp : Timespec
  completion_timestamp : Timespec
deriving DecidableEq

instance : Inhabited RequestMeta := ⟨⟨default, default, default, default⟩⟩

/-- `enum queue_policy` of `server_mimg.c`. -/
inductive QueuePolicy where
  | QUEUE_FIFO
  | QUEUE_SJN
deriving DecidableEq

/-- `struct queue` of `server_mimg.c`: ring of `max_size` request-meta slots
with write position, read position, availability count and policy tag.  The
malloc'd slot array is modelled as a list of length `max_size`. -/
structure Queue where
  wr_pos : Nat
  rd_pos : Nat
  max_size : Nat
  available : Nat
  policy : QueuePolicy
  requests : List RequestMeta
deriving DecidableEq

/-- `queue_init` of `server_mimg.c` (lines 140-149). -/
def queue_init (queue_size : Nat) (policy : QueuePolicy) : Queue :=
  { rd_pos := 0
    wr_pos := 0
    max_size := queue_size
    requests := List.replicate queue_size default
    available := queue_size
    policy := policy }

/-- Result of `add_to_queue`: the C return value together with the state it
mutates under `queue_mutex` — the queue itself, the per-image ordering table
`wait_op` (a map from image id to the list of outstanding request ids), and
the number of `sem_post(queue_notify)` wake-ups issued. -/
structure AddResult where
  retval : Nat
  queue : Queue
  wait_op : Nat → List Nat
  notify_posts : Nat

/-- `add_to_queue` of `server_mimg.c` (lines 152-187): if no slot is
available return 1 with no side effect; otherwise store the request at
`wr_pos`, advance `wr_pos` modulo `max_size`, decrement `available`, append
the request id to the per-image ordering table entry of the target image
(the realloc-backed growth of `img_req_array` is modelled by list append),
and post `queue_notify` once. -/
def add_to_queue (to_add : RequestMeta) (the_queue : Queue)
    (wait_op : Nat → List Nat) (notify_posts : Nat) : AddResult :=
  if the_queue.available = 0 then
    ⟨1, the_queue, wait_op, notify_posts⟩
  else
    ⟨0,
     { the_queue with
        requests := the_queue.requests.set the_queue.wr_pos to_add
        wr_pos := (the_queue.wr_pos + 1) % the_queue.max_size
        available := the_queue.available - 1 },
     fun j => if j = to_add.request.img_id
              then wait_op j ++ [to_add.request.req_id]
              else wait_op j,
     notify_posts + 1⟩

/-- `get_from_queue` of `server_mimg.c` (lines 190-208): unconditionally
return the entry at `rd_pos`, advance `rd_pos` modulo `max_size` and
increment `available`.  No field of the queue other than `rd_pos` and
`available` is touched, and the policy tag is never consulted. -/
def get_from_queue (the_queue : Queue) : RequestMeta × Queue :=
  (the_queue.requests.getD the_queue.rd_pos default,
   { the_queue with
      rd_pos := (the_queue.rd_pos + 1) % the_queue.max_size
      available := the_queue.available + 1 })

/-- Embedding of the `-p` option case of `main` in `server_mimg.c`
(lines 621-629): only the exact string FIFO is accepted; any other value
prints the usage string and exits with `EXIT_FAILURE`, modelled as `none`. -/
def parse_policy_arg (optarg : String) : Option QueuePolicy :=
  if optarg = "FIFO" then some QueuePolicy.QUEUE_FIFO else none

end Hw7

namespace Hw7

/-- The pure image transforms (`rotate90Clockwise`, `blurImage`, ...) are
external collaborators of the core (out of scope per the spec); the worker
treats them as total functions from image to image, so they are carried as
an abstract record of functions over an abstract image type. -/
structure ImgOps (Image : Type) where
  rotate90Clockwise : Image → Image
  blurImage : Image → Image
  sharpenImage : Image → Image
  detectVerticalEdges : Image → Image
  detectHorizontalEdges : Image → Image

/-- The `switch (req.request.img_op)` of `worker_main` (lines 308-324):
dispatch to the matching transform; the switch has no default case, so any
other opcode (including `IMG_RETRIEVE` and unknown codes) leaves the image
variable untouched. -/
def process_image {Image : Type} (fs : ImgOps Image) (op : Nat) (img : Image) :
    Image :=
  if op = IMG_ROT90CLKW then fs.rotate90Clockwise img
  else if op = IMG_BLUR then fs.blurImage img
  else if op = IMG_SHARPEN then fs.sharpenImage img
  else if op = IMG_VERTEDGES then fs.detectVerticalEdges img
  else if op = IMG_HORIZEDGES then fs.detectHorizontalEdges img
  else img

/-- `register_new_image` of `server_mimg.c` (lines 236-269), restricted to
the store and the response it sends: under `arr_mutex` the counter is
incremented, the `images` array grown by one slot, the received image
installed in the new last slot, and the response carries
`image_counter - 1`, i.e. the pre-insertion length, with `RESP_COMPLETED`.
(The parallel growth of `img_semaphores` and of the `wait_op` table carries
no image data and is omitted.) -/
def register_new_image {Image : Type} (req : Request) (images : List Image)
    (new_img : Image) : Response × List Image :=
  let images1 := images ++ [new_img]
  (⟨req.req_id, RESP_COMPLETED, images1.length - 1⟩, images1)

/-- The execution-and-publication part of `worker_main` (lines 301-345):
read `images[img_id]`, apply the switch, then — for any opcode other than
`IMG_RETRIEVE` — publish under `arr_mutex`: on `overwrite` write the result
back into the target slot, otherwise reassign `img_id = image_counter++`
and append the result; finally build the response from `req_id`,
`RESP_COMPLETED` and the (possibly reassigned) `img_id`. -/
def worker_exec {Image : Type} [Inhabited Image] (fs : ImgOps Image)
    (req : Request) (images : List Image) : Response × List Image :=
  let img := process_image fs req.img_op (images.getD req.img_id default)
  if req.img_op ≠ IMG_RETRIEVE then
    if req.overwrite then
      (⟨req.req_id, RESP_COMPLETED, req.img_id⟩, images.set req.img_id img)
    else
      (⟨req.req_id, RESP_COMPLETED, images.length⟩, images ++ [img])
  else
    (⟨req.req_id, RESP_COMPLETED, req.img_id⟩, images)

/-- The opcodes that the wire protocol defines; any other numeral is an
unknown opcode in the sense of the InvalidOp error kind of the spec. -/
def known_opcode (op : Nat) : Prop :=
  op = IMG_REGISTER ∨ op = IMG_ROT90CLKW ∨ op = IMG_BLUR ∨
  op = IMG_SHARPEN ∨ op = IMG_VERTEDGES ∨ op = IMG_HORIZEDGES ∨
  op = IMG_RETRIEVE

instance (op : Nat) : Decidable (known_opcode op) := by
  unfold known_opcode
  infer_instance

/-- The rejection response built by `handle_connection` (lines 570-573): the
stack-allocated `struct response resp` has only its `req_id` and `ack`
fields assigned before being sent; `img_id` retains whatever the
uninitialized stack memory held, modelled by threading that arbitrary
initial value through. -/
def reject_response (req : Request) (uninit : Response) : Response :=
  { uninit with req_id := req.req_id, ack := RESP_REJECTED }

/-- A rejection trace line `X<req_id>:<sent>,<length>,<receipt>` as emitted
by `handle_connection` (lines 578-582), as structured data (the six-digit
decimal rendering of the timestamps is out of scope). -/
structure XTrace where
  req_id : Nat
  sent : Timespec
  length : Timespec
  receipt : Timespec
deriving DecidableEq

/-- The rejection trace of a request, with the three timestamps printed by
the `sync_printf` call: client send timestamp, requested length, receipt
timestamp. -/
def rejection_trace (req : RequestMeta) : XTrace :=
  ⟨req.request.req_id, req.request.req_timestamp, req.request.req_length,
   req.receipt_timestamp⟩

/-- Outcome of one dispatcher-loop iteration for a non-REGISTER request:
the queue state, ordering table and notify count after `add_to_queue`, the
list of responses sent on the socket, and the list of `X` trace lines
emitted. -/
structure DispatchResult where
  queue : Queue
  wait_op : Nat → List Nat
  notify_posts : Nat
  sent : List Response
  traces : List XTrace

/-- The non-REGISTER branch of the dispatcher loop in `handle_connection`
(lines 566-585): run `add_to_queue`; when it reports a full queue, send
exactly one rejection response and emit exactly one `X` trace line;
otherwise send nothing (the worker responds later). -/
def dispatch_nonregister (req : RequestMeta) (the_queue : Queue)
    (wait_op : Nat → List Nat) (notify_posts : Nat) (uninit : Response) :
    DispatchResult :=
  let r := add_to_queue req the_queue wait_op notify_posts
  if r.retval ≠ 0 then
    ⟨r.queue, r.wait_op, r.notify_posts,
     [reject_response req.request uninit], [rejection_trace req]⟩
  else
    ⟨r.queue, r.wait_op, r.notify_posts, [], []⟩

/-- The rejection response of the hw6 variant `server_img.c`
(lines 337-345): unlike hw7 it does assign the `img_id` field, echoing the
target image id of the rejected request. -/
def reject_response_hw6 (req : Request) (uninit : Response) : Response :=
  { uninit with req_id := req.req_id, img_id := req.img_id, ack := 1 }

/-- Store events: an inline registration performed by the dispatcher, or the
execution of an admitted request by a worker.  Used to follow the sequence
of identifier assignments performed on the image store (both mutations run
under `arr_mutex`, so the store history is a sequence). -/
inductive StoreEvent (Image : Type) where
  | register (req : Request) (new_img : Image)
  | work (req : Request)

/-- One store mutation: the optional freshly assigned identifier (some for a
registration or a non-overwriting non-RETRIEVE operation, none otherwise)
together with the new store contents. -/
def store_step {Image : Type} [Inhabited Image] (fs : ImgOps Image)
    (images : List Image) : StoreEvent Image → Option Nat × List Image
  | StoreEvent.register req new_img =>
      let r := register_new_image req images new_img
      (some r.1.img_id, r.2)
  | StoreEvent.work req =>
      let r := worker_exec fs req images
      (if req.img_op ≠ IMG_RETRIEVE ∧ req.overwrite = false
       then some r.1.img_id else none, r.2)

/-- The sequence of identifiers assigned by a sequence of store events,
in order. -/
def assigned_ids {Image : Type} [Inhabited Image] (fs : ImgOps Image) :
    List Image → List (StoreEvent Image) → List Nat
  | _, [] => []
  | images, e :: es =>
      (store_step fs images e).1.toList ++
        assigned_ids fs (store_step fs images e).2 es

end Hw7

namespace Hw5

/-- `struct request_meta` of `server_pol.c`: the wire request plus the
receipt timestamp (field spelled `reciept` in the source). -/
structure RequestMeta where
  req : Request
  reciept : Timespec
deriving DecidableEq

instance : Inhabited RequestMeta := ⟨⟨default, default⟩⟩

/-- `struct queue` of `server_pol.c`: ring buffer with `head`/`tail`
indices (C `int`s, using -1 as the empty sentinel), the item array and the
live count `size`.  The C array has static length `QUEUE_MAX`; all index
arithmetic is performed modulo the global `QUEUE_SIZE`, which is passed
explicitly to the operations below. -/
structure Queue where
  head : Int
  tail : Int
  size : Nat
  items : List RequestMeta
deriving DecidableEq

/-- The live span of the queue: the `size` entries starting at `head`,
in ring order modulo `QUEUE_SIZE`. -/
def live_list (QUEUE_SIZE : Nat) (q : Queue) : List RequestMeta :=
  (List.range q.size).map
    (fun i => q.items.getD ((q.head.toNat + i) % QUEUE_SIZE) default)

/-- The declared length of the i-th live entry, as compared by
`sjn_get_from_queue` (the C code compares `TSPEC_TO_DOUBLE(req_length)`
values; we compare the exact nanosecond value, which orders identically
under exact arithmetic). -/
def len_at (QUEUE_SIZE : Nat) (q : Queue) (i : Nat) : Nat :=
  tspec_to_ns ((q.items.getD ((q.head.toNat + i) % QUEUE_SIZE) default).req.req_length)

/-- The selection scan of `sjn_get_from_queue` (lines 139-148), returning
the offset from `head` of the selected entry.  The C code tracks the
absolute ring index `ind_sjn = (head + i) % QUEUE_SIZE` together with the
running minimum length; we track the offset `i` instead, from which the
absolute index is recomputed — the comparisons performed are identical, and
an entry replaces the running minimum only when strictly shorter, so the
earliest occurrence of the minimum is retained. -/
def sjn_scan (QUEUE_SIZE : Nat) (q : Queue) : Nat :=
  ((List.range q.size).foldl
    (fun acc i =>
      if len_at QUEUE_SIZE q i < acc.2 then (i, len_at QUEUE_SIZE q i) else acc)
    (0, tspec_to_ns ((q.items.getD q.head.toNat default).req.req_length))).1

/-- The removal loop of `sjn_get_from_queue` (lines 150-152): walking
backwards from the selected index to `head`, copy each predecessor one slot
forward.  The fuel argument is the offset of the selected entry from
`head`; at fuel `j+1` the slot at offset `j+1` receives the entry at offset
`j`, exactly as the iteration with `i = (head + j + 1) % QUEUE_SIZE` does. -/
def sjn_shift (QUEUE_SIZE head : Nat) : Nat → List RequestMeta → List RequestMeta
  | 0, items => items
  | j + 1, items =>
      sjn_shift QUEUE_SIZE head j
        (items.set ((head + j + 1) % QUEUE_SIZE)
          (items.getD ((head + j) % QUEUE_SIZE) default))

/-- `sjn_get_from_queue` of `server_pol.c` (lines 129-166): on the empty
queue the C function prints an error and returns an uninitialized value
(modelled as `none`); otherwise it selects the live entry with the smallest
declared length (ties to the earliest), shifts its predecessors one slot
towards the tail, advances `head` modulo `QUEUE_SIZE`, decrements `size`,
and resets `head = tail = -1` when the queue became empty. -/
def sjn_get_from_queue (QUEUE_SIZE : Nat) (q : Queue) :
    Option RequestMeta × Queue :=
  if q.size = 0 then (none, q)
  else
    let o := sjn_scan QUEUE_SIZE q
    let retval := q.items.getD ((q.head.toNat + o) % QUEUE_SIZE) default
    let items1 := sjn_shift QUEUE_SIZE q.head.toNat o q.items
    if q.size - 1 = 0 then
      (some retval, { q with items := items1, head := -1, tail := -1, size := 0 })
    else
      (some retval,
       { q with
          items := items1
          head := (q.head + 1) % (QUEUE_SIZE : Int)
          size := q.size - 1 })

end Hw5


/-- Pointwise update of a function on Nat (used by the interleaving
models for per-worker program counters). -/
def upd {A : Type} (f : Nat → A) (i : Nat) (v : A) : Nat → A :=
  fun j => if j = i then v else f j

namespace Outbound

/-- The two kinds of payloads a worker sends on the outbound socket: the
fixed-size response header, and (for IMG_RETRIEVE) the image payload. -/
inductive Part where
  | header
  | payload
deriving DecidableEq

/-- Send events on the outbound socket; each send call is split into a
begin and a finish event so that byte-level interleaving of two sends is
expressible in the log. -/
inductive SendEv where
  | beg (w : Nat) (p : Part)
  | fin (w : Nat) (p : Part)
deriving DecidableEq

/-- Program counter of a worker in the response-emission code of
`worker_main` (lines 347-360): `s0` before `sem_wait(&conn_socket_mutex)`,
`s1` holding the mutex, `s2` inside `send` of the header, `s3` after it
(still holding), `s4` between the two critical sections (mutex released by
line 349), `s5` holding again (line 353), `s6` inside `sendImage`, `s7`
after it, `sdone` finished. -/
inductive WS where
  | s0
  | s1
  | s2
  | s3
  | s4
  | s5
  | s6
  | s7
  | sdone
deriving DecidableEq

/-- State of the outbound gate: the `conn_socket_mutex` holder (`none` =
free), each worker's program counter, and the ordered log of send events
on the shared socket. -/
structure OState where
  mtx : Option Nat
  pcs : Nat → WS
  log : List SendEv

/-- Interleaving steps of the response emission of `worker_main`
(lines 347-360) for `nw` workers; `retr i` tells whether worker i is
completing an IMG_RETRIEVE request and hence also streams the image
payload.  Exactly as in the source, the mutex is posted after the header
send (line 349) and re-acquired for the payload send (line 353). -/
inductive OStep (retr : Nat → Bool) (nw : Nat) : OState → OState → Prop where
  | acquire1 (s : OState) (i : Nat) (hi : i < nw) (hpc : s.pcs i = WS.s0)
      (hm : s.mtx = none) :
      OStep retr nw s { s with mtx := some i, pcs := upd s.pcs i WS.s1 }
  | begin_header (s : OState) (i : Nat) (hi : i < nw) (hpc : s.pcs i = WS.s1) :
      OStep retr nw s
        { s with pcs := upd s.pcs i WS.s2
                 log := s.log ++ [SendEv.beg i Part.header] }
  | end_header (s : OState) (i : Nat) (hi : i < nw) (hpc : s.pcs i = WS.s2) :
      OStep retr nw s
        { s with pcs := upd s.pcs i WS.s3
                 log := s.log ++ [SendEv.fin i Part.header] }
  | release1 (s : OState) (i : Nat) (hi : i < nw) (hpc : s.pcs i = WS.s3) :
      OStep retr nw s
        { s with mtx := none
                 pcs := upd s.pcs i (if retr i then WS.s4 else WS.sdone) }
  | acquire2 (s : OState) (i : Nat) (hi : i < nw) (hpc : s.pcs i = WS.s4)
      (hm : s.mtx = none) :
      OStep retr nw s { s with mtx := some i, pcs := upd s.pcs i WS.s5 }
  | begin_payload (s : OState) (i : Nat) (hi : i < nw) (hpc : s.pcs i = WS.s5) :
      OStep retr nw s
        { s with pcs := upd s.pcs i WS.s6
                 log := s.log ++ [SendEv.beg i Part.payload] }
  | end_payload (s : OState) (i : Nat) (hi : i < nw) (hpc : s.pcs i = WS.s6) :
      OStep retr nw s
        { s with pcs := upd s.pcs i WS.s7
                 log := s.log ++ [SendEv.fin i Part.payload] }
  | release2 (s : OState) (i : Nat) (hi : i < nw) (hpc : s.pcs i = WS.s7) :
      OStep retr nw s { s with mtx := none, pcs := upd s.pcs i WS.sdone }

/-- Initial state: mutex free, all workers before their sends, empty log. -/
def oInit : OState := ⟨none, fun _ => WS.s0, []⟩

/-- Reachability under the outbound-gate steps. -/
inductive OReach (retr : Nat → Bool) (nw : Nat) : OState → Prop where
  | init : OReach retr nw oInit
  | step (s s2 : OState) : OReach retr nw s → OStep retr nw s s2 →
      OReach retr nw s2

/-- A log exhibits pair interleaving when another worker's response header
begins between one worker's response header and its image payload. -/
def header_interposed (log : List SendEv) : Prop :=
  ∃ (i j a b c : Nat), a < b ∧ b < c ∧ ¬ i = j ∧
    log[a]? = some (SendEv.beg i Part.header) ∧
    log[b]? = some (SendEv.beg j Part.header) ∧
    log[c]? = some (SendEv.beg i Part.payload)

/-- Scan of a send log checking that individual sends never overlap: a
send may begin only when no send is open, and the open send must be
finished by the same worker with the same part.  Returns the send left
open at the end of the log, or `none` for an overlapping log. -/
def scan_log : Option (Nat × Part) → List SendEv → Option (Option (Nat × Part))
  | st, [] => some st
  | none, SendEv.beg w p :: rest => scan_log (some (w, p)) rest
  | none, SendEv.fin _ _ :: rest => none
  | some _, SendEv.beg _ _ :: rest => none
  | some (w, p), SendEv.fin w2 p2 :: rest =>
      if w = w2 ∧ p = p2 then scan_log none rest else none

/-- The send currently open on the socket, read off the state: the mutex
holder's program counter says whether it sits inside a send call. -/
def open_send (s : OState) : Option (Nat × Part) :=
  match s.mtx with
  | none => none
  | some i =>
      if s.pcs i = WS.s2 then some (i, Part.header)
      else if s.pcs i = WS.s6 then some (i, Part.payload)
      else none

/-- Worker retrieve-flags of the concrete two-worker run used below:
worker 0 answers an IMG_RETRIEVE request, worker 1 a plain one. -/
def retr2 : Nat → Bool := fun i => i == 0

/-- Concrete two-worker run of the outbound gate, step by step: worker 0
sends its RETRIEVE response header and releases the mutex; worker 1 then
sends its own response header; worker 0 finally streams its image payload.
`ob0` through `ob12` are the successive states. -/
def ob0 : OState := oInit

def ob1 : OState := { ob0 with mtx := some 0, pcs := upd ob0.pcs 0 WS.s1 }

def ob2 : OState :=
  { ob1 with pcs := upd ob1.pcs 0 WS.s2
             log := ob1.log ++ [SendEv.beg 0 Part.header] }

def ob3 : OState :=
  { ob2 with pcs := upd ob2.pcs 0 WS.s3
             log := ob2.log ++ [SendEv.fin 0 Part.header] }

def ob4 : OState :=
  { ob3 with mtx := none
             pcs := upd ob3.pcs 0 (if retr2 0 then WS.s4 else WS.sdone) }

def ob5 : OState := { ob4 with mtx := some 1, pcs := upd ob4.pcs 1 WS.s1 }

def ob6 : OState :=
  { ob5 with pcs := upd ob5.pcs 1 WS.s2
             log := ob5.log ++ [SendEv.beg 1 Part.header] }

def ob7 : OState :=
  { ob6 with pcs := upd ob6.pcs 1 WS.s3
             log := ob6.log ++ [SendEv.fin 1 Part.header] }

def ob8 : OState :=
  { ob7 with mtx := none
             pcs := upd ob7.pcs 1 (if retr2 1 then WS.s4 else WS.sdone) }

def ob9 : OState := { ob8 with mtx := some 0, pcs := upd ob8.pcs 0 WS.s5 }

def ob10 : OState :=
  { ob9 with pcs := upd ob9.pcs 0 WS.s6
             log := ob9.log ++ [SendEv.beg 0 Part.payload] }

def ob11 : OState :=
  { ob10 with pcs := upd ob10.pcs 0 WS.s7
              log := ob10.log ++ [SendEv.fin 0 Part.payload] }

def ob12 : OState := { ob11 with mtx := none, pcs := upd ob11.pcs 0 WS.sdone }

end Outbound


namespace Gate

/-- The data of an admitted request that the per-image turn gate of
`server_mimg.c` depends on: its request id, and the opcode/overwrite flag
which decide whether the worker's final `sem_post` targets this image's
semaphore. -/
structure GReq where
  rid : Nat
  img_op : Nat
  overwrite : Bool
deriving DecidableEq

instance : Inhabited GReq := ⟨⟨0, 0, false⟩⟩

/-- Whether the post at line 338 releases this image's semaphore.  For a
non-overwriting non-RETRIEVE operation the local `img_id` was reassigned
to the freshly allocated id at line 332, so the posted semaphore is that
of the newly produced image and the original image's gate is never
released. -/
def GReq.releases_gate (r : GReq) : Bool :=
  r.overwrite || (r.img_op == IMG_RETRIEVE)

/-- Program counter of the worker processing one admitted request
targeting the image under consideration, following `worker_main`:
`pending` before the dispatcher admits the request; `queued` admitted (in
the `wait_op` table); `discarded` dequeued but dropped by the
`worker_done` check (line 286); `atGate` at
`sem_wait(&img_semaphores[img_id])` (line 289); `checking` holding the
semaphore and evaluating the head test of line 291; `inCS` past the test;
`removedHead` after the memmove/count decrement (lines 296-299); `stamped`
after the start timestamp (line 301); `finishedW` after the
execute/publish/post block (lines 303-338). -/
inductive WPc where
  | pending
  | queued
  | discarded
  | atGate
  | checking
  | inCS
  | removedHead
  | stamped
  | finishedW
deriving DecidableEq

/-- State of the gate for one image: the image's binary semaphore (true =
free), the `wait_op` ordering list for this image, the per-request worker
program counters and start stamps, and a logical clock that advances on
every step (CLOCK_MONOTONIC idealised as strictly monotone). -/
structure GState where
  sem : Bool
  table : List Nat
  pcs : Nat → WPc
  starts : Nat → Option Nat
  clock : Nat

/-- The request id at admission position i. -/
def rid_at (reqs : List GReq) (i : Nat) : Nat := (reqs.getD i default).rid

/-- Interleaving steps of the per-image gate protocol for the requests
`reqs` (in admission order) targeting one image.  `enqueue` is the
dispatcher's `add_to_queue` appending the request id to the table, forced
to happen in admission order because the dispatcher is single-threaded;
`drop_item` is the worker_done discard (line 286); the remaining steps
follow the worker statements cited in `WPc`.  A request releases the
semaphore at `finish_up` only when its `img_id` was not reassigned
(overwrite or RETRIEVE); otherwise the post targets another image's
semaphore and this gate stays held. -/
inductive GStep (reqs : List GReq) : GState → GState → Prop where
  | enqueue (s : GState) (i : Nat) (hi : i < reqs.length)
      (hpc : s.pcs i = WPc.pending)
      (hprev : ∀ j, j < i → s.pcs j ≠ WPc.pending) :
      GStep reqs s
        { s with table := s.table ++ [rid_at reqs i]
                 pcs := upd s.pcs i WPc.queued
                 clock := s.clock + 1 }
  | drop_item (s : GState) (i : Nat) (hi : i < reqs.length)
      (hpc : s.pcs i = WPc.queued) :
      GStep reqs s
        { s with pcs := upd s.pcs i WPc.discarded, clock := s.clock + 1 }
  | to_gate (s : GState) (i : Nat) (hi : i < reqs.length)
      (hpc : s.pcs i = WPc.queued) :
      GStep reqs s
        { s with pcs := upd s.pcs i WPc.atGate, clock := s.clock + 1 }
  | acquire (s : GState) (i : Nat) (hi : i < reqs.length)
      (hpc : s.pcs i = WPc.atGate) (hsem : s.sem = true) :
      GStep reqs s
        { s with sem := false
                 pcs := upd s.pcs i WPc.checking
                 clock := s.clock + 1 }
  | pass_check (s : GState) (i : Nat) (hi : i < reqs.length)
      (hpc : s.pcs i = WPc.checking)
      (hhead : s.table = [] ∨ s.table.head? = some (rid_at reqs i)) :
      GStep reqs s
        { s with pcs := upd s.pcs i WPc.inCS, clock := s.clock + 1 }
  | spin (s : GState) (i : Nat) (hi : i < reqs.length)
      (hpc : s.pcs i = WPc.checking)
      (hhead : ¬ (s.table = [] ∨ s.table.head? = some (rid_at reqs i))) :
      GStep reqs s
        { s with sem := true
                 pcs := upd s.pcs i WPc.atGate
                 clock := s.clock + 1 }
  | remove_head (s : GState) (i : Nat) (hi : i < reqs.length)
      (hpc : s.pcs i = WPc.inCS) :
      GStep reqs s
        { s with table := s.table.tail
                 pcs := upd s.pcs i WPc.removedHead
                 clock := s.clock + 1 }
  | stamp_start (s : GState) (i : Nat) (hi : i < reqs.length)
      (hpc : s.pcs i = WPc.removedHead) :
      GStep reqs s
        { s with starts := upd s.starts i (some s.clock)
                 pcs := upd s.pcs i WPc.stamped
                 clock := s.clock + 1 }
  | finish_up (s : GState) (i : Nat) (hi : i < reqs.length)
      (hpc : s.pcs i = WPc.stamped) :
      GStep reqs s
        { s with sem := if (reqs.getD i default).releases_gate then true
                        else s.sem
                 pcs := upd s.pcs i WPc.finishedW
                 clock := s.clock + 1 }

/-- Initial gate state: semaphore free (sem_init value 1), empty table,
all requests pending, no start stamps. -/
def gInit : GState := ⟨true, [], fun _ => WPc.pending, fun _ => none, 0⟩

/-- Reachability under the gate steps. -/
inductive GReach (reqs : List GReq) : GState → Prop where
  | init : GReach reqs gInit
  | step (s s2 : GState) : GReach reqs s → GStep reqs s s2 → GReach reqs s2

/-- Requests whose head entry has already been removed from the table. -/
def past_remove : WPc → Bool
  | WPc.removedHead => true
  | WPc.stamped => true
  | WPc.finishedW => true
  | _ => false

/-- Whether a worker at the given program counter holds the image
semaphore: it is held from a successful `sem_wait` through the head test,
the removal, the start stamp and the execute/publish block; a finished
worker still holds it when its request does not release the gate. -/
def holds_sem (r : GReq) : WPc → Bool
  | WPc.checking => true
  | WPc.inCS => true
  | WPc.removedHead => true
  | WPc.stamped => true
  | WPc.finishedW => !r.releases_gate
  | _ => false

/-- The slice of the admission order between positions k and m, as request
ids: the contents of the `wait_op` table once the first k requests have
been removed and the first m admitted. -/
def table_spec (reqs : List GReq) (k m : Nat) : List Nat :=
  ((reqs.drop k).take (m - k)).map GReq.rid

/-- Inductive invariant of the gate protocol at removal count k and
admission count m: the table is the admission slice [k, m); the pending
program counters are exactly the not-yet-admitted positions and the
past-removal ones exactly the first k; the semaphore is held by at most
one worker and is free exactly when held by none; a worker past the head
test sits at position k, and one past the removal at position k - 1; start
stamps exist exactly from the stamp step on, are below the clock, and are
strictly ordered by admission position. -/
structure GInvAt (reqs : List GReq) (k m : Nat) (s : GState) : Prop where
  hkm : k ≤ m
  hmn : m ≤ reqs.length
  htab : s.table = table_spec reqs k m
  hpend : ∀ i, i < reqs.length → (s.pcs i = WPc.pending ↔ m ≤ i)
  hout : ∀ i, reqs.length ≤ i → s.pcs i = WPc.pending
  hpast : ∀ i, i < reqs.length → (past_remove (s.pcs i) = true ↔ i < k)
  hmux : ∀ i j, holds_sem (reqs.getD i default) (s.pcs i) = true →
      holds_sem (reqs.getD j default) (s.pcs j) = true → i = j
  hsem : s.sem = true ↔
      ∀ i, holds_sem (reqs.getD i default) (s.pcs i) = false
  hcs : ∀ i, s.pcs i = WPc.inCS → i = k
  hrem : ∀ i, s.pcs i = WPc.removedHead → k = i + 1
  hst : ∀ i, (s.starts i).isSome = true ↔
      (s.pcs i = WPc.stamped ∨ s.pcs i = WPc.finishedW)
  hclk : ∀ i t, s.starts i = some t → t < s.clock
  hord : ∀ i j ti tj, i < j → s.starts i = some ti → s.starts j = some tj →
      ti < tj

/-- The invariant, with the two counters existentially quantified. -/
def GInv (reqs : List GReq) (s : GState) : Prop := ∃ k m, GInvAt reqs k m s

/-- Two overwriting requests (ids 1 and 2) used for the concrete gate run:
both release the gate after publishing. -/
def gr2 : List GReq := [⟨1, IMG_BLUR, true⟩, ⟨2, IMG_BLUR, true⟩]

/-- Concrete run of the gate protocol on `gr2`: both requests admitted in
order, request 1 passes the gate, stamps its start at logical time 6 and
releases; request 2 then passes and stamps at logical time 12.  `gs0`
through `gs13` are the successive states. -/
def gs0 : GState := gInit

def gs1 : GState :=
  { gs0 with table := gs0.table ++ [rid_at gr2 0]
             pcs := upd gs0.pcs 0 WPc.queued
             clock := gs0.clock + 1 }

def gs2 : GState :=
  { gs1 with table := gs1.table ++ [rid_at gr2 1]
             pcs := upd gs1.pcs 1 WPc.queued
             clock := gs1.clock + 1 }

def gs3 : GState :=
  { gs2 with pcs := upd gs2.pcs 0 WPc.atGate, clock := gs2.clock + 1 }

def gs4 : GState :=
  { gs3 with sem := false
             pcs := upd gs3.pcs 0 WPc.checking
             clock := gs3.clock + 1 }

def gs5 : GState :=
  { gs4 with pcs := upd gs4.pcs 0 WPc.inCS, clock := gs4.clock + 1 }

def gs6 : GState :=
  { gs5 with table := gs5.table.tail
             pcs := upd gs5.pcs 0 WPc.removedHead
             clock := gs5.clock + 1 }

def gs7 : GState :=
  { gs6 with starts := upd gs6.starts 0 (some gs6.clock)
             pcs := upd gs6.pcs 0 WPc.stamped
             clock := gs6.clock + 1 }

def gs8 : GState :=
  { gs7 with sem := if (gr2.getD 0 default).releases_gate then true
                    else gs7.sem
             pcs := upd gs7.pcs 0 WPc.finishedW
             clock := gs7.clock + 1 }

def gs9 : GState :=
  { gs8 with pcs := upd gs8.pcs 1 WPc.atGate, clock := gs8.clock + 1 }

def gs10 : GState :=
  { gs9 with sem := false
             pcs := upd gs9.pcs 1 WPc.checking
             clock := gs9.clock + 1 }

def gs11 : GState :=
  { gs10 with pcs := upd gs10.pcs 1 WPc.inCS, clock := gs10.clock + 1 }

def gs12 : GState :=
  { gs11 with table := gs11.table.tail
              pcs := upd gs11.pcs 1 WPc.removedHead
              clock := gs11.clock + 1 }

def gs13 : GState :=
  { gs12 with starts := upd gs12.starts 1 (some gs12.clock)
              pcs := upd gs12.pcs 1 WPc.stamped
              clock := gs12.clock + 1 }

end Gate


/-! ### Theorems -/

/-- Claim C2.  For every request and queue state, `add_to_queue` returns 1
(Rejected) when `available = 0` and then leaves the queue, the per-image
ordering table and the notify count unchanged; otherwise it returns 0,
writes the request at the write position, advances the write position
modulo capacity, decrements `available` by exactly one, appends the request
id to the ordering-table entry of the target image (all other entries
unchanged), and posts the not-empty semaphore exactly once. -/
theorem add_to_queue_full_and_side_effects (to_add : Hw7.RequestMeta)
    (q : Hw7.Queue) (w : Nat → List Nat) (np : Nat) :
    (q.available = 0 →
      (Hw7.add_to_queue to_add q w np).retval = 1 ∧
      (Hw7.add_to_queue to_add q w np).queue = q ∧
      (∀ j, (Hw7.add_to_queue to_add q w np).wait_op j = w j) ∧
      (Hw7.add_to_queue to_add q w np).notify_posts = np) ∧
    (q.available ≠ 0 →
      (Hw7.add_to_queue to_add q w np).retval = 0 ∧
      (Hw7.add_to_queue to_add q w np).queue.requests
        = q.requests.set q.wr_pos to_add ∧
      (Hw7.add_to_queue to_add q w np).queue.wr_pos
        = (q.wr_pos + 1) % q.max_size ∧
      (Hw7.add_to_queue to_add q w np).queue.available + 1 = q.available ∧
      (Hw7.add_to_queue to_add q w np).queue.rd_pos = q.rd_pos ∧
      (Hw7.add_to_queue to_add q w np).queue.max_size = q.max_size ∧
      (Hw7.add_to_queue to_add q w np).queue.policy = q.policy ∧
      (Hw7.add_to_queue to_add q w np).wait_op to_add.request.img_id
        = w to_add.request.img_id ++ [to_add.request.req_id] ∧
      (∀ j, j ≠ to_add.request.img_id →
        (Hw7.add_to_queue to_add q w np).wait_op j = w j) ∧
      (Hw7.add_to_queue to_add q w np).notify_posts = np + 1) := by
  constructor
  · intro h
    simp [Hw7.add_to_queue, h]
  · intro h
    have h1 : q.available - 1 + 1 = q.available :=
      Nat.succ_pred_eq_of_pos (Nat.pos_of_ne_zero h)
    refine ⟨?_, ?_, ?_, ?_, ?_, ?_, ?_, ?_, ?_, ?_⟩ <;>
      simp [Hw7.add_to_queue, h, h1]

/-- Witness for C2: both branches of the theorem evaluated at concrete
queues (a full one with `available = 0` and one with two free slots). -/
theorem add_to_queue_full_and_side_effects_witness :
    ((Hw7.queue_init 2 Hw7.QueuePolicy.QUEUE_FIFO).available ≠ 0 ∧
      (Hw7.add_to_queue default (Hw7.queue_init 2 Hw7.QueuePolicy.QUEUE_FIFO)
        (fun _ => []) 0).notify_posts = 0 + 1) ∧
    ({ Hw7.queue_init 2 Hw7.QueuePolicy.QUEUE_FIFO with available := 0 }.available = 0 ∧
      (Hw7.add_to_queue default
        { Hw7.queue_init 2 Hw7.QueuePolicy.QUEUE_FIFO with available := 0 }
        (fun _ => []) 0).retval = 1) :=
  ⟨⟨by decide,
    ((add_to_queue_full_and_side_effects default
      (Hw7.queue_init 2 Hw7.QueuePolicy.QUEUE_FIFO) (fun _ => []) 0).2
      (by decide)).2.2.2.2.2.2.2.2.2⟩,
   ⟨rfl,
    ((add_to_queue_full_and_side_effects default
      { Hw7.queue_init 2 Hw7.QueuePolicy.QUEUE_FIFO with available := 0 }
      (fun _ => []) 0).1 rfl).1⟩⟩

/-- Claim C3.  For every non-empty queue under the FIFO policy,
`get_from_queue` returns the entry at the read position, advances the read
position by one modulo capacity, increments `available` by exactly one, and
the number of live entries `max_size - available` decreases by exactly
one. -/
theorem get_from_queue_fifo_extraction (q : Hw7.Queue)
    (hpol : q.policy = Hw7.QueuePolicy.QUEUE_FIFO)
    (hne : q.available < q.max_size) :
    (Hw7.get_from_queue q).1 = q.requests.getD q.rd_pos default ∧
    (Hw7.get_from_queue q).2.rd_pos = (q.rd_pos + 1) % q.max_size ∧
    (Hw7.get_from_queue q).2.available = q.available + 1 ∧
    (Hw7.get_from_queue q).2.wr_pos = q.wr_pos ∧
    (Hw7.get_from_queue q).2.requests = q.requests ∧
    (Hw7.get_from_queue q).2.max_size - (Hw7.get_from_queue q).2.available + 1
      = q.max_size - q.available := by
  refine ⟨rfl, rfl, rfl, rfl, rfl, ?_⟩
  simp only [Hw7.get_from_queue]
  omega

/-- Witness for C3: the theorem applied to a concrete two-slot FIFO queue
holding one live entry. -/
theorem get_from_queue_fifo_extraction_witness :
    ({ Hw7.queue_init 2 Hw7.QueuePolicy.QUEUE_FIFO with available := 1 }.available < 2) ∧
    (Hw7.get_from_queue
      { Hw7.queue_init 2 Hw7.QueuePolicy.QUEUE_FIFO with available := 1 }).2.available = 2 :=
  ⟨by decide,
   (get_from_queue_fifo_extraction
      { Hw7.queue_init 2 Hw7.QueuePolicy.QUEUE_FIFO with available := 1 }
      rfl (by decide)).2.2.1⟩

/-- Claim C10.  In the hw7 server the extraction function never consults the
policy tag: its result on a queue whose policy field has been replaced by an
arbitrary tag is the same entry and the same queue state (up to that tag),
and extraction always returns the entry at the read position; moreover the
command-line parser accepts only the string FIFO for `-p`, failing on every
other value, in particular on SJN. -/
theorem extraction_ignores_policy_tag :
    (∀ (q : Hw7.Queue) (p : Hw7.QueuePolicy),
      (Hw7.get_from_queue { q with policy := p }).1 = (Hw7.get_from_queue q).1 ∧
      (Hw7.get_from_queue { q with policy := p }).2
        = { (Hw7.get_from_queue q).2 with policy := p }) ∧
    (∀ q : Hw7.Queue, (Hw7.get_from_queue q).1 = q.requests.getD q.rd_pos default) ∧
    Hw7.parse_policy_arg "FIFO" = some Hw7.QueuePolicy.QUEUE_FIFO ∧
    Hw7.parse_policy_arg "SJN" = none ∧
    (∀ s : String, s ≠ "FIFO" → Hw7.parse_policy_arg s = none) := by
  refine ⟨fun q p => ⟨rfl, rfl⟩, fun q => rfl, rfl, rfl, ?_⟩
  intro s hs
  simp [Hw7.parse_policy_arg, hs]

/-- Witness for C10: the parser applied to the concrete strings FIFO and
SJN. -/
theorem extraction_ignores_policy_tag_witness :
    Hw7.parse_policy_arg "SJN" = none ∧
    Hw7.parse_policy_arg "FIFO" = some Hw7.QueuePolicy.QUEUE_FIFO :=
  ⟨extraction_ignores_policy_tag.2.2.2.2 "SJN" (by decide),
   extraction_ignores_policy_tag.2.2.1⟩

/-- Helper for C5: a store event that assigns an identifier assigns exactly
the pre-insertion store length and grows the store by one slot. -/
theorem store_step_assigns_length {Image : Type} [Inhabited Image]
    (fs : Hw7.ImgOps Image) (images : List Image) (e : Hw7.StoreEvent Image)
    (id : Nat) (h : (Hw7.store_step fs images e).1 = some id) :
    id = images.length ∧
    (Hw7.store_step fs images e).2.length = images.length + 1 := by
  cases e with
  | register req img =>
      simp [Hw7.store_step, Hw7.register_new_image] at h ⊢
      omega
  | work req =>
      by_cases hc : req.img_op ≠ IMG_RETRIEVE ∧ req.overwrite = false
      · simp [Hw7.store_step, Hw7.worker_exec, hc, hc.1, hc.2] at h ⊢
        omega
      · simp [Hw7.store_step, hc] at h

/-- Helper for C5: a store event that assigns no identifier leaves the store
length unchanged. -/
theorem store_step_none_keeps_length {Image : Type} [Inhabited Image]
    (fs : Hw7.ImgOps Image) (images : List Image) (e : Hw7.StoreEvent Image)
    (h : (Hw7.store_step fs images e).1 = none) :
    (Hw7.store_step fs images e).2.length = images.length := by
  cases e with
  | register req img => simp [Hw7.store_step, Hw7.register_new_image] at h
  | work req =>
      by_cases hc : req.img_op ≠ IMG_RETRIEVE ∧ req.overwrite = false
      · simp [Hw7.store_step, hc] at h
      · rcases Decidable.not_and_iff_or_not.mp hc with hop | how
        · have hop2 : req.img_op = IMG_RETRIEVE := Decidable.not_not.mp hop
          simp [Hw7.store_step, Hw7.worker_exec, hop2]
        · have how2 : req.overwrite = true := by
            cases hov : req.overwrite
            · exact absurd hov how
            · rfl
          by_cases hop : req.img_op = IMG_RETRIEVE
          · simp [Hw7.store_step, Hw7.worker_exec, hop]
          · simp [Hw7.store_step, Hw7.worker_exec, hop, how2]

/-- Helper for C5: the store never shrinks across an event. -/
theorem store_step_length_mono {Image : Type} [Inhabited Image]
    (fs : Hw7.ImgOps Image) (images : List Image) (e : Hw7.StoreEvent Image) :
    images.length ≤ (Hw7.store_step fs images e).2.length := by
  cases h : (Hw7.store_step fs images e).1 with
  | none => exact Nat.le_of_eq (store_step_none_keeps_length fs images e h).symm
  | some id =>
      have := (store_step_assigns_length fs images e id h).2
      omega

/-- Helper for C5: every identifier assigned along a run is at least the
initial store length. -/
theorem assigned_ids_lower_bound {Image : Type} [Inhabited Image]
    (fs : Hw7.ImgOps Image) :
    ∀ (events : List (Hw7.StoreEvent Image)) (images : List Image) (id : Nat),
      id ∈ Hw7.assigned_ids fs images events → images.length ≤ id := by
  intro events
  induction events with
  | nil => intro images id h; simp [Hw7.assigned_ids] at h
  | cons e es ih =>
      intro images id h
      simp only [Hw7.assigned_ids, List.mem_append] at h
      rcases h with h | h
      · cases hs : (Hw7.store_step fs images e).1 with
        | none => rw [hs] at h; simp at h
        | some v =>
            rw [hs] at h
            simp at h
            subst h
            exact Nat.le_of_eq (store_step_assigns_length fs images e id hs).1.symm
      · exact le_trans (store_step_length_mono fs images e) (ih _ id h)

/-- Claim C5.  Every image identifier assigned by the store (by REGISTER or
as the output of a non-overwriting operation) equals the store length
immediately before the insertion; the store grows by exactly one slot per
assignment and keeps its length when no identifier is assigned; and along
any sequence of store events the assigned identifiers are strictly
increasing, so no identifier is ever reused. -/
theorem store_ids_strictly_increasing (Image : Type) [Inhabited Image]
    (fs : Hw7.ImgOps Image) :
    (∀ (images : List Image) (e : Hw7.StoreEvent Image) (id : Nat),
      (Hw7.store_step fs images e).1 = some id →
      id = images.length ∧
      (Hw7.store_step fs images e).2.length = images.length + 1) ∧
    (∀ (images : List Image) (e : Hw7.StoreEvent Image),
      (Hw7.store_step fs images e).1 = none →
      (Hw7.store_step fs images e).2.length = images.length) ∧
    (∀ (events : List (Hw7.StoreEvent Image)) (images : List Image),
      List.Pairwise (· < ·) (Hw7.assigned_ids fs images events)) := by
  refine ⟨store_step_assigns_length fs, store_step_none_keeps_length fs, ?_⟩
  intro events
  induction events with
  | nil => intro images; simp [Hw7.assigned_ids]
  | cons e es ih =>
      intro images
      simp only [Hw7.assigned_ids]
      cases hs : (Hw7.store_step fs images e).1 with
      | none => simpa using ih (Hw7.store_step fs images e).2
      | some v =>
          simp only [Option.toList_some, List.singleton_append,
            List.pairwise_cons]
          refine ⟨?_, ih (Hw7.store_step fs images e).2⟩
          intro b hb
          have hv := (store_step_assigns_length fs images e v hs).1
          have hlen := (store_step_assigns_length fs images e v hs).2
          have hbl := assigned_ids_lower_bound fs es
            (Hw7.store_step fs images e).2 b hb
          omega

/-- Witness for C5: the theorem instantiated at a concrete run of three
events (register, an overwriting blur, a non-overwriting sharpen) over a
concrete store, with the assignment branch evaluated at a register event. -/
theorem store_ids_strictly_increasing_witness :
    (@Hw7.store_step Nat _ ⟨id, id, id, id, id⟩ [7]
        (Hw7.StoreEvent.register default 9)).1 = some 1 ∧
    (1 : Nat) = [(7 : Nat)].length ∧
    List.Pairwise (· < ·)
      (@Hw7.assigned_ids Nat _ ⟨id, id, id, id, id⟩ [7]
        [Hw7.StoreEvent.register default 9,
         Hw7.StoreEvent.work ⟨1, default, default, IMG_BLUR, true, 0⟩,
         Hw7.StoreEvent.work ⟨2, default, default, IMG_SHARPEN, false, 1⟩]) :=
  ⟨by decide,
   ((store_ids_strictly_increasing Nat ⟨id, id, id, id, id⟩).1 [7]
      (Hw7.StoreEvent.register default 9) 1 (by decide)).1,
   (store_ids_strictly_increasing Nat ⟨id, id, id, id, id⟩).2.2
      [Hw7.StoreEvent.register default 9,
       Hw7.StoreEvent.work ⟨1, default, default, IMG_BLUR, true, 0⟩,
       Hw7.StoreEvent.work ⟨2, default, default, IMG_SHARPEN, false, 1⟩] [7]⟩

/-- Claim C6.  For a completed request whose operation is overwriting or is
RETRIEVE, the response carries the target image id of the request; for a
REGISTER or a non-overwriting operation the response carries the freshly
allocated identifier (the pre-insertion store length); and RETRIEVE leaves
the image store unchanged. -/
theorem response_img_id_echo_or_fresh (Image : Type) [Inhabited Image]
    (fs : Hw7.ImgOps Image) (req : Request) (images : List Image)
    (new_img : Image) :
    (req.overwrite = true → req.img_op ≠ IMG_RETRIEVE →
      (Hw7.worker_exec fs req images).1.img_id = req.img_id) ∧
    (req.img_op = IMG_RETRIEVE →
      (Hw7.worker_exec fs req images).1.img_id = req.img_id ∧
      (Hw7.worker_exec fs req images).2 = images) ∧
    ((Hw7.register_new_image req images new_img).1.img_id = images.length) ∧
    (req.overwrite = false → req.img_op ≠ IMG_RETRIEVE →
      (Hw7.worker_exec fs req images).1.img_id = images.length) := by
  refine ⟨?_, ?_, ?_, ?_⟩
  · intro how hop
    simp [Hw7.worker_exec, hop, how]
  · intro hop
    exact ⟨by simp [Hw7.worker_exec, hop], by simp [Hw7.worker_exec, hop]⟩
  · simp [Hw7.register_new_image]
  · intro how hop
    simp [Hw7.worker_exec, hop, how]

/-- Witness for C6: the theorem applied to a concrete store of two images
with an overwriting blur, then instantiated again through its RETRIEVE and
non-overwriting branches at the same concrete input. -/
theorem response_img_id_echo_or_fresh_witness :
    ((@Hw7.worker_exec Nat _ ⟨id, id, id, id, id⟩
        ⟨4, default, default, IMG_BLUR, true, 1⟩ [5, 6]).1.img_id = 1) ∧
    ((@Hw7.worker_exec Nat _ ⟨id, id, id, id, id⟩
        ⟨4, default, default, IMG_RETRIEVE, false, 0⟩ [5, 6]).2 = [5, 6]) ∧
    ((@Hw7.register_new_image Nat default [5, 6] 9).1.img_id = 2) :=
  ⟨(response_img_id_echo_or_fresh Nat ⟨id, id, id, id, id⟩
      ⟨4, default, default, IMG_BLUR, true, 1⟩ [5, 6] 9).1 rfl (by decide),
   ((response_img_id_echo_or_fresh Nat ⟨id, id, id, id, id⟩
      ⟨4, default, default, IMG_RETRIEVE, false, 0⟩ [5, 6] 9).2.1 rfl).2,
   (response_img_id_echo_or_fresh Nat ⟨id, id, id, id, id⟩
      ⟨4, default, default, IMG_BLUR, true, 1⟩ [5, 6] 9).2.2.1⟩

/-- Claim C7 (code bug).  When the queue is full the hw7 dispatcher sends
exactly one REJECTED response echoing the request id and emits exactly one
rejection trace `X<req_id>:<sent>,<length>,<receipt>`, leaving the queue,
ordering table and notify count untouched — but the `img_id` field of that
response is never assigned: it carries whatever value the uninitialized
stack memory held, not the target image id the spec mandates.  The hw6
variant does echo the target image id. -/
theorem rejection_img_id_left_uninitialized (req : Hw7.RequestMeta)
    (q : Hw7.Queue) (w : Nat → List Nat) (np : Nat) (uninit : Response)
    (hfull : q.available = 0) :
    (Hw7.dispatch_nonregister req q w np uninit).sent
      = [⟨req.request.req_id, RESP_REJECTED, uninit.img_id⟩] ∧
    (Hw7.dispatch_nonregister req q w np uninit).traces
      = [⟨req.request.req_id, req.request.req_timestamp,
          req.request.req_length, req.receipt_timestamp⟩] ∧
    (Hw7.dispatch_nonregister req q w np uninit).queue = q ∧
    (∀ j, (Hw7.dispatch_nonregister req q w np uninit).wait_op j = w j) ∧
    (Hw7.dispatch_nonregister req q w np uninit).notify_posts = np ∧
    (Hw7.reject_response_hw6 req.request uninit).img_id = req.request.img_id := by
  refine ⟨?_, ?_, ?_, ?_, ?_, ?_⟩ <;>
    simp [Hw7.dispatch_nonregister, Hw7.add_to_queue, hfull,
      Hw7.reject_response, Hw7.rejection_trace, Hw7.reject_response_hw6]

/-- Witness for C7: the theorem applied to a concrete full queue, a request
targeting image 3 and an uninitialized response whose stale `img_id` is 7,
showing the sent response carries 7 rather than 3. -/
theorem rejection_img_id_left_uninitialized_witness :
    ({ Hw7.queue_init 1 Hw7.QueuePolicy.QUEUE_FIFO with available := 0 }.available = 0) ∧
    ((Hw7.dispatch_nonregister
        ⟨⟨5, default, default, IMG_BLUR, false, 3⟩, default, default, default⟩
        { Hw7.queue_init 1 Hw7.QueuePolicy.QUEUE_FIFO with available := 0 }
        (fun _ => []) 0 ⟨0, 0, 7⟩).sent
      = [⟨5, RESP_REJECTED, 7⟩]) ∧ (7 : Nat) ≠ 3 :=
  ⟨rfl,
   (rejection_img_id_left_uninitialized
      ⟨⟨5, default, default, IMG_BLUR, false, 3⟩, default, default, default⟩
      { Hw7.queue_init 1 Hw7.QueuePolicy.QUEUE_FIFO with available := 0 }
      (fun _ => []) 0 ⟨0, 0, 7⟩ rfl).1,
   by decide⟩

/-- Claim C8 counterexample.  The claim that a request with an unknown
opcode yields a REJECTED response and leaves the store unchanged is false
for the hw7 worker: it performs no opcode validation, so the request is
executed (as the identity, since the switch has no default) and answered
COMPLETED, and with `overwrite = false` the store is mutated by appending a
copy of the target image. -/
theorem unknown_opcode_not_rejected_counterexample :
    ¬ (∀ (fs : Hw7.ImgOps Nat) (req : Request) (images : List Nat),
        ¬ Hw7.known_opcode req.img_op →
        (Hw7.worker_exec fs req images).1.ack = RESP_REJECTED ∧
        (Hw7.worker_exec fs req images).2 = images) := by
  intro h
  have h2 := h ⟨id, id, id, id, id⟩ ⟨9, default, default, 99, false, 0⟩ [5]
    (by decide)
  exact absurd h2.1 (by decide)

/-- Claim C8 amended.  The hw7 server validates neither the opcode nor the
target image id: a request with an unknown opcode is executed as the
identity transform and acknowledged COMPLETED — overwriting rewrites the
target slot with its unchanged contents, non-overwriting appends a copy of
the target image under a fresh id.  (An out-of-range image id is likewise
passed through unvalidated; in the C source this is an out-of-bounds read
with no defined value to embed.) -/
theorem unknown_opcode_completes (Image : Type) [Inhabited Image]
    (fs : Hw7.ImgOps Image) (req : Request) (images : List Image)
    (hunk : ¬ Hw7.known_opcode req.img_op) :
    (Hw7.worker_exec fs req images).1.ack = RESP_COMPLETED ∧
    (req.overwrite = false →
      (Hw7.worker_exec fs req images).2
        = images ++ [images.getD req.img_id default]) ∧
    (req.overwrite = true →
      (Hw7.worker_exec fs req images).2
        = images.set req.img_id (images.getD req.img_id default)) := by
  simp only [Hw7.known_opcode, not_or] at hunk
  obtain ⟨h0, h1, h2, h3, h4, h5, h6⟩ := hunk
  have hp : ∀ x : Image, Hw7.process_image fs req.img_op x = x := by
    intro x
    simp [Hw7.process_image, h1, h2, h3, h4, h5]
  refine ⟨?_, ?_, ?_⟩
  · cases how : req.overwrite <;> simp [Hw7.worker_exec, h6, how]
  · intro how; simp [Hw7.worker_exec, h6, how, hp]
  · intro how; simp [Hw7.worker_exec, h6, how, hp]

/-- Witness for C8: the amended theorem applied to the concrete unknown
opcode 99 against a one-image store. -/
theorem unknown_opcode_completes_witness :
    ¬ Hw7.known_opcode 99 ∧
    (@Hw7.worker_exec Nat _ ⟨id, id, id, id, id⟩
      ⟨9, default, default, 99, false, 0⟩ [5]).1.ack = RESP_COMPLETED ∧
    (@Hw7.worker_exec Nat _ ⟨id, id, id, id, id⟩
      ⟨9, default, default, 99, false, 0⟩ [5]).2 = [5, 5] :=
  ⟨by decide,
   (unknown_opcode_completes Nat ⟨id, id, id, id, id⟩
      ⟨9, default, default, 99, false, 0⟩ [5] (by decide)).1,
   by
    have := (unknown_opcode_completes Nat ⟨id, id, id, id, id⟩
      ⟨9, default, default, 99, false, 0⟩ [5] (by decide)).2.1 rfl
    simpa using this⟩

/-- Helper: reading a list at a position different from the one just set. -/
theorem getD_set_ne {α : Type} [Inhabited α] (l : List α) (p q : Nat) (a : α)
    (h : p ≠ q) : (l.set p a).getD q default = l.getD q default := by
  simp [List.getD, List.getElem?_set_ne h]

/-- Helper: reading a list at the position just set. -/
theorem getD_set_self {α : Type} [Inhabited α] (l : List α) (p : Nat) (a : α)
    (h : p < l.length) : (l.set p a).getD p default = a := by
  simp [List.getD]
  rw [List.getElem?_set_self (by simpa using h)]
  rfl

/-- Helper: a list read below the length through `getD` agrees with the
optional read. -/
theorem getD_eq_some {α : Type} [Inhabited α] (l : List α) (i : Nat)
    (h : i < l.length) : l[i]? = some (l.getD i default) := by
  rw [List.getElem?_eq_getElem h]
  simp [List.getD, List.getElem?_eq_getElem h]

/-- Helper: ring positions `(head + a) % QUEUE_SIZE` are distinct for
distinct offsets below the modulus. -/
theorem ring_offset_inj (head Q a b : Nat) (ha : a < Q) (hb : b < Q)
    (h : (head + a) % Q = (head + b) % Q) : a = b := by
  have h2 : a % Q = b % Q := Nat.ModEq.add_left_cancel' head h
  rwa [Nat.mod_eq_of_lt ha, Nat.mod_eq_of_lt hb] at h2

/-- Helper: the removal loop of the SJN extraction does not change the
length of the slot array. -/
theorem sjn_shift_length (QS head : Nat) :
    ∀ (f : Nat) (items : List Hw5.RequestMeta),
      (Hw5.sjn_shift QS head f items).length = items.length := by
  intro f
  induction f with
  | zero => intro items; rfl
  | succ j ih =>
      intro items
      show (Hw5.sjn_shift QS head j _).length = _
      rw [ih, List.length_set]

/-- Helper: slot contents after the removal loop of the SJN extraction,
read at ring offset `j` from `head`: offsets `1..f` now hold their
predecessor entries, all other offsets are untouched. -/
theorem sjn_shift_getD (QS head : Nat) :
    ∀ (f : Nat) (items : List Hw5.RequestMeta), f < QS → QS ≤ items.length →
      ∀ j, j < QS →
        (Hw5.sjn_shift QS head f items).getD ((head + j) % QS) default =
          if 1 ≤ j ∧ j ≤ f then items.getD ((head + j - 1) % QS) default
          else items.getD ((head + j) % QS) default := by
  intro f
  induction f with
  | zero =>
      intro items hf hlen j hj
      rw [if_neg (by omega)]
      rfl
  | succ fj ih =>
      intro items hf hlen j hj
      have hQ : 0 < QS := by omega
      have hfj : fj < QS := Nat.lt_of_succ_lt hf
      have hlen1 : QS ≤ (items.set ((head + fj + 1) % QS)
          (items.getD ((head + fj) % QS) default)).length := by
        rw [List.length_set]; exact hlen
      have hstep : Hw5.sjn_shift QS head (fj + 1) items
          = Hw5.sjn_shift QS head fj
              (items.set ((head + fj + 1) % QS)
                (items.getD ((head + fj) % QS) default)) := rfl
      rw [hstep, ih _ hfj hlen1 j hj]
      by_cases hc : 1 ≤ j ∧ j ≤ fj
      · rw [if_pos hc, if_pos ⟨hc.1, Nat.le_succ_of_le hc.2⟩]
        have hne : (head + fj + 1) % QS ≠ (head + (j - 1)) % QS := by
          intro he
          have : fj + 1 = j - 1 :=
            ring_offset_inj head QS (fj + 1) (j - 1) hf (by omega) he
          omega
        have hidx : head + j - 1 = head + (j - 1) := by omega
        rw [hidx, getD_set_ne _ _ _ _ hne]
      · by_cases hj1 : j = fj + 1
        · subst hj1
          rw [if_neg hc, if_pos ⟨by omega, le_refl _⟩]
          have hlt : (head + fj + 1) % QS < items.length :=
            lt_of_lt_of_le (Nat.mod_lt _ hQ) hlen
          rw [show head + (fj + 1) - 1 = head + fj from rfl,
            show head + (fj + 1) = head + fj + 1 from rfl]
          rw [getD_set_self _ _ _ hlt]
        · rw [if_neg hc, if_neg (by omega)]
          have hne : (head + fj + 1) % QS ≠ (head + j) % QS := by
            intro he
            have : fj + 1 = j := ring_offset_inj head QS (fj + 1) j hf hj he
            omega
          rw [getD_set_ne _ _ _ _ hne]

/-- Helper: the i-th element of the live span. -/
theorem live_list_getD (QS : Nat) (q : Hw5.Queue) (i : Nat) (hi : i < q.size) :
    (Hw5.live_list QS q).getD i default
      = q.items.getD ((q.head.toNat + i) % QS) default := by
  simp [Hw5.live_list, List.getD, List.getElem?_map, List.getElem?_range hi]

/-- Helper: the live span has exactly `size` entries. -/
theorem live_list_length (QS : Nat) (q : Hw5.Queue) :
    (Hw5.live_list QS q).length = q.size := by
  simp [Hw5.live_list]

/-- Helper: the running-minimum fold used by the SJN scan selects the
earliest index attaining the minimum of `f` on `0..n-1`: the result is in
range, its value is minimal, and every earlier index has a strictly larger
value. -/
theorem foldl_min_select (f : Nat → Nat) :
    ∀ (n : Nat) (r : Nat × Nat), 0 < n →
      r = (List.range n).foldl
            (fun acc i => if f i < acc.2 then (i, f i) else acc) (0, f 0) →
      r.2 = f r.1 ∧ r.1 < n ∧ (∀ i, i < n → f r.1 ≤ f i) ∧
        (∀ i, i < r.1 → f r.1 < f i) := by
  intro n
  induction n with
  | zero => intro r h; omega
  | succ m ih =>
      intro r hpos hr
      rw [List.range_succ, List.foldl_append, List.foldl_cons,
        List.foldl_nil] at hr
      by_cases hm : 0 < m
      · obtain ⟨ha, hb, hc, hd⟩ := ih ((List.range m).foldl
          (fun acc i => if f i < acc.2 then (i, f i) else acc) (0, f 0)) hm rfl
        set r0 := (List.range m).foldl
          (fun acc i => if f i < acc.2 then (i, f i) else acc) (0, f 0) with hr0
        by_cases hlt : f m < r0.2
        · rw [if_pos hlt] at hr
          subst hr
          rw [ha] at hlt
          refine ⟨rfl, Nat.lt_succ_self m, ?_, ?_⟩
          · intro i hi
            rcases Nat.lt_succ_iff_lt_or_eq.mp hi with hi2 | hi2
            · exact le_of_lt (lt_of_lt_of_le hlt (hc i hi2))
            · subst hi2; exact le_refl _
          · intro i hi
            exact lt_of_lt_of_le hlt (hc i hi)
        · rw [if_neg hlt] at hr
          subst hr
          rw [ha] at hlt
          refine ⟨ha, Nat.lt_succ_of_lt hb, ?_, hd⟩
          intro i hi
          rcases Nat.lt_succ_iff_lt_or_eq.mp hi with hi2 | hi2
          · exact hc i hi2
          · subst hi2; omega
      · have hm0 : m = 0 := by omega
        subst hm0
        simp only [List.range_zero, List.foldl_nil] at hr
        have : ¬ f 0 < f 0 := lt_irrefl _
        rw [if_neg this] at hr
        subst hr
        exact ⟨rfl, Nat.lt_succ_self 0, by
          intro i hi
          have : i = 0 := by omega
          subst this; exact le_refl _, by omega⟩

/-- Helper: what the SJN selection scan guarantees: the selected offset is
live, carries the minimum declared length, and strictly precedes no shorter
entry (the earliest minimum is selected). -/
theorem sjn_scan_spec (QS : Nat) (q : Hw5.Queue) (hsz : 0 < q.size)
    (hh : q.head.toNat < QS) :
    Hw5.sjn_scan QS q < q.size ∧
    (∀ i, i < q.size →
      Hw5.len_at QS q (Hw5.sjn_scan QS q) ≤ Hw5.len_at QS q i) ∧
    (∀ i, i < Hw5.sjn_scan QS q →
      Hw5.len_at QS q (Hw5.sjn_scan QS q) < Hw5.len_at QS q i) := by
  have hinit : tspec_to_ns ((q.items.getD q.head.toNat default).req.req_length)
      = Hw5.len_at QS q 0 := by
    unfold Hw5.len_at
    rw [Nat.add_zero, Nat.mod_eq_of_lt hh]
  have hspec := foldl_min_select (Hw5.len_at QS q) q.size
    ((List.range q.size).foldl
      (fun acc i => if Hw5.len_at QS q i < acc.2 then (i, Hw5.len_at QS q i)
                    else acc)
      (0, Hw5.len_at QS q 0)) hsz rfl
  have heq : Hw5.sjn_scan QS q
      = ((List.range q.size).foldl
          (fun acc i => if Hw5.len_at QS q i < acc.2 then (i, Hw5.len_at QS q i)
                        else acc)
          (0, Hw5.len_at QS q 0)).1 := by
    unfold Hw5.sjn_scan
    rw [hinit]
  rw [heq]
  exact ⟨hspec.2.1, hspec.2.2.1, fun i hi => hspec.2.2.2 i hi⟩

/-- Helper: elementwise description of removing the element at index `o`
from a list. -/
theorem eraseIdx_getD {α : Type} [Inhabited α] (l : List α) (o i : Nat)
    (ho : o < l.length) (hi : i < l.length - 1) :
    (l.eraseIdx o).getD i default
      = if i < o then l.getD i default else l.getD (i + 1) default := by
  have hto : (l.take o).length = o := by rw [List.length_take]; omega
  rw [List.eraseIdx_eq_take_drop_succ]
  simp only [List.getD, List.get?_eq_getElem?]
  rw [List.getElem?_append, hto]
  by_cases hio : i < o
  · rw [if_pos hio, if_pos hio, List.getElem?_take, if_pos hio]
  · rw [if_neg hio, if_neg hio, List.getElem?_drop,
      show o + 1 + (i - o) = i + 1 by omega]

/-- Claim C4 amended.  For every non-empty well-formed hw5 queue, the SJN
extraction returns the live entry with the numerically smallest declared
length, ties broken in favour of the entry closest to the read position; it
removes that entry by shifting all predecessors forward one slot, so the
remaining live span is exactly the old one with the selected entry erased
(admission order preserved) and the live count drops by exactly one; the
read position advances by exactly one modulo capacity whenever the queue
stays non-empty, while an extraction that empties the queue resets `head`
and `tail` to the -1 empty sentinel instead. -/
theorem sjn_extracts_earliest_minimum (QS : Nat) (q : Hw5.Queue)
    (hsz : 0 < q.size) (hle : q.size ≤ QS) (hh0 : 0 ≤ q.head)
    (hhQ : q.head < (QS : Int)) (hlen : QS ≤ q.items.length) :
    Hw5.sjn_scan QS q < q.size ∧
    (Hw5.sjn_get_from_queue QS q).1
      = some ((Hw5.live_list QS q).getD (Hw5.sjn_scan QS q) default) ∧
    (∀ i, i < q.size →
      tspec_to_ns (((Hw5.live_list QS q).getD (Hw5.sjn_scan QS q) default).req.req_length)
        ≤ tspec_to_ns (((Hw5.live_list QS q).getD i default).req.req_length)) ∧
    (∀ i, i < Hw5.sjn_scan QS q →
      tspec_to_ns (((Hw5.live_list QS q).getD (Hw5.sjn_scan QS q) default).req.req_length)
        < tspec_to_ns (((Hw5.live_list QS q).getD i default).req.req_length)) ∧
    Hw5.live_list QS (Hw5.sjn_get_from_queue QS q).2
      = (Hw5.live_list QS q).eraseIdx (Hw5.sjn_scan QS q) ∧
    (Hw5.sjn_get_from_queue QS q).2.size = q.size - 1 ∧
    (2 ≤ q.size →
      (Hw5.sjn_get_from_queue QS q).2.head = (q.head + 1) % (QS : Int)) ∧
    (q.size = 1 →
      (Hw5.sjn_get_from_queue QS q).2.head = -1 ∧
      (Hw5.sjn_get_from_queue QS q).2.tail = -1) := by
  have hQ : 0 < QS := lt_of_lt_of_le hsz hle
  have hhn : q.head.toNat < QS := by omega
  have hne0 : ¬ q.size = 0 := by omega
  obtain ⟨ho, hmin, hstrict⟩ := sjn_scan_spec QS q hsz hhn
  have hlenat : ∀ i, i < q.size →
      Hw5.len_at QS q i
        = tspec_to_ns (((Hw5.live_list QS q).getD i default).req.req_length) := by
    intro i hi
    rw [live_list_getD QS q i hi]
    rfl
  by_cases h1 : q.size - 1 = 0
  · have hget : Hw5.sjn_get_from_queue QS q
        = (some (q.items.getD
            ((q.head.toNat + Hw5.sjn_scan QS q) % QS) default),
           { q with
              items := Hw5.sjn_shift QS q.head.toNat (Hw5.sjn_scan QS q) q.items
              head := -1
              tail := -1
              size := 0 }) := by
      simp only [Hw5.sjn_get_from_queue]
      rw [if_neg hne0, if_pos h1]
    refine ⟨ho, ?_, ?_, ?_, ?_, ?_, ?_, ?_⟩
    · rw [hget, live_list_getD QS q _ ho]
    · intro i hi
      rw [← hlenat _ hi, ← hlenat _ ho]
      exact hmin i hi
    · intro i hi
      rw [← hlenat _ (lt_trans hi ho), ← hlenat _ ho]
      exact hstrict i hi
    · have hL2 : ((Hw5.live_list QS q).eraseIdx (Hw5.sjn_scan QS q)).length
          = 0 := by
        rw [List.length_eraseIdx]
        rw [live_list_length]
        rw [if_pos ho]
        omega
      rw [List.length_eq_zero.mp hL2, hget]
      simp [Hw5.live_list]
    · rw [hget]
      exact (show (0 : Nat) = q.size - 1 by omega)
    · intro h2
      omega
    · intro h2
      rw [hget]
      exact ⟨rfl, rfl⟩
  · have hget : Hw5.sjn_get_from_queue QS q
        = (some (q.items.getD
            ((q.head.toNat + Hw5.sjn_scan QS q) % QS) default),
           { q with
              items := Hw5.sjn_shift QS q.head.toNat (Hw5.sjn_scan QS q) q.items
              head := (q.head + 1) % (QS : Int)
              size := q.size - 1 }) := by
      simp only [Hw5.sjn_get_from_queue]
      rw [if_neg hne0, if_neg h1]
    have hcast : ((q.head + 1) % (QS : Int)).toNat = (q.head.toNat + 1) % QS := by
      have hh' : q.head = (q.head.toNat : Int) := (Int.toNat_of_nonneg hh0).symm
      conv_lhs => rw [hh']
      rw [show ((q.head.toNat : Int) + 1) = ((q.head.toNat + 1 : Nat) : Int) by
          push_cast; ring,
        ← Int.natCast_mod, Int.toNat_natCast]
    have hpoint : ∀ i, i < q.size - 1 →
        (Hw5.live_list QS (Hw5.sjn_get_from_queue QS q).2).getD i default
          = ((Hw5.live_list QS q).eraseIdx (Hw5.sjn_scan QS q)).getD i default := by
      intro i hi
      rw [hget]
      rw [live_list_getD QS _ i hi]
      show (Hw5.sjn_shift QS q.head.toNat (Hw5.sjn_scan QS q) q.items).getD
        ((((q.head + 1) % (QS : Int)).toNat + i) % QS) default = _
      rw [hcast,
        show ((q.head.toNat + 1) % QS + i) % QS
            = (q.head.toNat + (i + 1)) % QS by
          rw [Nat.mod_add_mod]; congr 1; omega]
      rw [sjn_shift_getD QS q.head.toNat (Hw5.sjn_scan QS q) q.items
        (lt_of_lt_of_le ho hle) hlen (i + 1) (by omega)]
      rw [eraseIdx_getD (Hw5.live_list QS q) (Hw5.sjn_scan QS q) i
        (by rw [live_list_length]; exact ho)
        (by rw [live_list_length]; omega)]
      by_cases hio : i < Hw5.sjn_scan QS q
      · rw [if_pos ⟨by omega, by omega⟩, if_pos hio,
          show q.head.toNat + (i + 1) - 1 = q.head.toNat + i from rfl,
          live_list_getD QS q i (by omega)]
      · rw [if_neg (by omega), if_neg hio,
          live_list_getD QS q (i + 1) (by omega)]
    refine ⟨ho, ?_, ?_, ?_, ?_, ?_, ?_, ?_⟩
    · rw [hget, live_list_getD QS q _ ho]
    · intro i hi
      rw [← hlenat _ hi, ← hlenat _ ho]
      exact hmin i hi
    · intro i hi
      rw [← hlenat _ (lt_trans hi ho), ← hlenat _ ho]
      exact hstrict i hi
    · have hL1 : (Hw5.live_list QS (Hw5.sjn_get_from_queue QS q).2).length
          = q.size - 1 := by
        rw [hget, live_list_length]
      have hL2 : ((Hw5.live_list QS q).eraseIdx (Hw5.sjn_scan QS q)).length
          = q.size - 1 := by
        rw [List.length_eraseIdx, live_list_length, if_pos ho]
      apply List.ext_getElem?
      intro n
      by_cases hn : n < q.size - 1
      · rw [getD_eq_some _ n (by rw [hL1]; exact hn),
          getD_eq_some _ n (by rw [hL2]; exact hn), hpoint n hn]
      · rw [List.getElem?_eq_none (by rw [hL1]; omega),
          List.getElem?_eq_none (by rw [hL2]; omega)]
    · rw [hget]
    · intro h2
      rw [hget]
    · intro h2
      omega

/-- Claim C4 counterexample.  The claim that the SJN extraction always
advances the read position by exactly one modulo capacity is false: when
the extraction empties the queue, `sjn_get_from_queue` resets `head` (and
`tail`) to the -1 sentinel instead of `(head + 1) % QUEUE_SIZE`.  Concrete
input: a queue of capacity four holding one live entry at `head = 0`. -/
theorem sjn_rd_advance_claim_false :
    ¬ (∀ (QS : Nat) (q : Hw5.Queue), 0 < q.size → q.size ≤ QS →
        0 ≤ q.head → q.head < (QS : Int) → QS ≤ q.items.length →
        (Hw5.sjn_get_from_queue QS q).2.head = (q.head + 1) % (QS : Int)) := by
  intro h
  have h2 := h 4 ⟨0, 0, 1, [default, default, default, default]⟩
    (by decide) (by decide) (by decide) (by decide) (by decide)
  exact absurd h2 (by decide)

/-- Witness for C4: the amended theorem applied to a concrete capacity-3
queue holding three entries of declared lengths 5s, 1s, 3s: the selected
offset is 1 (the 1-second entry), the live count drops to 2, and the head
advances from 0 to 1. -/
theorem sjn_extracts_earliest_minimum_witness :
    Hw5.sjn_scan 3
      ⟨0, 2, 3,
        [⟨⟨1, default, ⟨5, 0⟩, 2, false, 0⟩, default⟩,
         ⟨⟨2, default, ⟨1, 0⟩, 2, false, 0⟩, default⟩,
         ⟨⟨3, default, ⟨3, 0⟩, 2, false, 0⟩, default⟩]⟩ = 1 ∧
    (Hw5.sjn_get_from_queue 3
      ⟨0, 2, 3,
        [⟨⟨1, default, ⟨5, 0⟩, 2, false, 0⟩, default⟩,
         ⟨⟨2, default, ⟨1, 0⟩, 2, false, 0⟩, default⟩,
         ⟨⟨3, default, ⟨3, 0⟩, 2, false, 0⟩, default⟩]⟩).2.size = 2 ∧
    (Hw5.sjn_get_from_queue 3
      ⟨0, 2, 3,
        [⟨⟨1, default, ⟨5, 0⟩, 2, false, 0⟩, default⟩,
         ⟨⟨2, default, ⟨1, 0⟩, 2, false, 0⟩, default⟩,
         ⟨⟨3, default, ⟨3, 0⟩, 2, false, 0⟩, default⟩]⟩).2.head = 1 :=
  ⟨by decide,
   (sjn_extracts_earliest_minimum 3
      ⟨0, 2, 3,
        [⟨⟨1, default, ⟨5, 0⟩, 2, false, 0⟩, default⟩,
         ⟨⟨2, default, ⟨1, 0⟩, 2, false, 0⟩, default⟩,
         ⟨⟨3, default, ⟨3, 0⟩, 2, false, 0⟩, default⟩]⟩
      (by decide) (by decide) (by decide) (by decide)
      (by decide)).2.2.2.2.2.1,
   by
    have := (sjn_extracts_earliest_minimum 3
      ⟨0, 2, 3,
        [⟨⟨1, default, ⟨5, 0⟩, 2, false, 0⟩, default⟩,
         ⟨⟨2, default, ⟨1, 0⟩, 2, false, 0⟩, default⟩,
         ⟨⟨3, default, ⟨3, 0⟩, 2, false, 0⟩, default⟩]⟩
      (by decide) (by decide) (by decide) (by decide)
      (by decide)).2.2.2.2.2.2.1 (by decide)
    rw [this]
    decide⟩

/-- Helper: updating a function at a point, read back at that point. -/
theorem upd_self {A : Type} (f : Nat → A) (i : Nat) (v : A) : upd f i v i = v := by
  simp [upd]

/-- Helper: updating a function at a point leaves other points unchanged. -/
theorem upd_other {A : Type} (f : Nat → A) (i j : Nat) (v : A) (h : j ≠ i) :
    upd f i v j = f j := by
  simp [upd, h]

/-- Helper: the concrete two-worker outbound run is reachable. -/
theorem ob_run_reach : Outbound.OReach Outbound.retr2 2 Outbound.ob12 := by
  have h0 : Outbound.OReach Outbound.retr2 2 Outbound.ob0 := Outbound.OReach.init
  have h1 : Outbound.OReach Outbound.retr2 2 Outbound.ob1 :=
    Outbound.OReach.step _ _ h0
      (Outbound.OStep.acquire1 Outbound.ob0 0 (by decide) (by decide) rfl)
  have h2 : Outbound.OReach Outbound.retr2 2 Outbound.ob2 :=
    Outbound.OReach.step _ _ h1
      (Outbound.OStep.begin_header Outbound.ob1 0 (by decide) (by decide))
  have h3 : Outbound.OReach Outbound.retr2 2 Outbound.ob3 :=
    Outbound.OReach.step _ _ h2
      (Outbound.OStep.end_header Outbound.ob2 0 (by decide) (by decide))
  have h4 : Outbound.OReach Outbound.retr2 2 Outbound.ob4 :=
    Outbound.OReach.step _ _ h3
      (Outbound.OStep.release1 Outbound.ob3 0 (by decide) (by decide))
  have h5 : Outbound.OReach Outbound.retr2 2 Outbound.ob5 :=
    Outbound.OReach.step _ _ h4
      (Outbound.OStep.acquire1 Outbound.ob4 1 (by decide) (by decide) rfl)
  have h6 : Outbound.OReach Outbound.retr2 2 Outbound.ob6 :=
    Outbound.OReach.step _ _ h5
      (Outbound.OStep.begin_header Outbound.ob5 1 (by decide) (by decide))
  have h7 : Outbound.OReach Outbound.retr2 2 Outbound.ob7 :=
    Outbound.OReach.step _ _ h6
      (Outbound.OStep.end_header Outbound.ob6 1 (by decide) (by decide))
  have h8 : Outbound.OReach Outbound.retr2 2 Outbound.ob8 :=
    Outbound.OReach.step _ _ h7
      (Outbound.OStep.release1 Outbound.ob7 1 (by decide) (by decide))
  have h9 : Outbound.OReach Outbound.retr2 2 Outbound.ob9 :=
    Outbound.OReach.step _ _ h8
      (Outbound.OStep.acquire2 Outbound.ob8 0 (by decide) (by decide) rfl)
  have h10 : Outbound.OReach Outbound.retr2 2 Outbound.ob10 :=
    Outbound.OReach.step _ _ h9
      (Outbound.OStep.begin_payload Outbound.ob9 0 (by decide) (by decide))
  have h11 : Outbound.OReach Outbound.retr2 2 Outbound.ob11 :=
    Outbound.OReach.step _ _ h10
      (Outbound.OStep.end_payload Outbound.ob10 0 (by decide) (by decide))
  exact Outbound.OReach.step _ _ h11
    (Outbound.OStep.release2 Outbound.ob11 0 (by decide) (by decide))

/-- Claim C9 counterexample.  The claim that in every execution a RETRIEVE
response's image payload is never interleaved with another worker's
response header is false for the hw7 worker: `conn_socket_mutex` is posted
after the header send and re-acquired for the payload send, so between the
two another worker can acquire it and send its own header.  The reachable
two-worker run `ob0 .. ob12` exhibits exactly that interleaving. -/
theorem outbound_pair_not_atomic :
    ¬ (∀ s, Outbound.OReach Outbound.retr2 2 s →
        ¬ Outbound.header_interposed s.log) := by
  intro h
  exact h Outbound.ob12 ob_run_reach
    ⟨0, 1, 0, 2, 4, by decide, by decide, by decide, by decide, by decide,
     by decide⟩

/-- Helper: the send-log scan distributes over appending. -/
theorem scan_log_append (st : Option (Nat × Outbound.Part))
    (l1 l2 : List Outbound.SendEv) :
    Outbound.scan_log st (l1 ++ l2)
      = (Outbound.scan_log st l1).bind
          (fun st1 => Outbound.scan_log st1 l2) := by
  induction l1 generalizing st with
  | nil => simp [Outbound.scan_log]
  | cons e rest ih =>
      cases st with
      | none =>
          cases e with
          | beg w p =>
              show Outbound.scan_log (some (w, p)) (rest ++ l2) = _
              rw [ih (some (w, p))]
              rfl
          | fin w p => rfl
      | some wp =>
          obtain ⟨w1, p1⟩ := wp
          cases e with
          | beg w p => rfl
          | fin w p =>
              by_cases hc : w1 = w ∧ p1 = p
              · show (if w1 = w ∧ p1 = p then
                    Outbound.scan_log none (rest ++ l2) else none) = _
                rw [if_pos hc, ih none]
                show _ = (if w1 = w ∧ p1 = p then
                    Outbound.scan_log none rest else none).bind _
                rw [if_pos hc]
              · show (if w1 = w ∧ p1 = p then
                    Outbound.scan_log none (rest ++ l2) else none) = _
                rw [if_neg hc]
                show _ = (if w1 = w ∧ p1 = p then
                    Outbound.scan_log none rest else none).bind _
                rw [if_neg hc]
                rfl

/-- Helper invariant for C9: the outbound mutex is held exactly by the
worker whose program counter sits in one of the two critical sections, and
the log scanned from the empty open-send state is well formed, leaving
open exactly the send the mutex holder is currently inside. -/
theorem outbound_mutex_scan_invariant (retr : Nat → Bool) (nw : Nat)
    (s : Outbound.OState) (h : Outbound.OReach retr nw s) :
    (∀ i, (s.pcs i = Outbound.WS.s1 ∨ s.pcs i = Outbound.WS.s2 ∨
           s.pcs i = Outbound.WS.s3 ∨ s.pcs i = Outbound.WS.s5 ∨
           s.pcs i = Outbound.WS.s6 ∨ s.pcs i = Outbound.WS.s7)
          ↔ s.mtx = some i) ∧
    Outbound.scan_log none s.log = some (Outbound.open_send s) := by
  induction h with
  | init =>
      refine ⟨fun i => ?_, rfl⟩
      simp [Outbound.oInit]
  | step s s2 hr hstep ih =>
      obtain ⟨ih1, ih2⟩ := ih
      cases hstep with
      | acquire1 i hi hpc hm =>
          refine ⟨fun j => ?_, ?_⟩
          · by_cases hj : j = i
            · subst hj
              simp [upd_self, hm]
            · simp only [upd_other s.pcs i j _ hj]
              rw [ih1 j, hm]
              constructor
              · intro hfalse; exact absurd hfalse (by simp)
              · intro hsome
                exact absurd hsome.symm (by simp [hj])
          · rw [ih2]
            have ho1 : Outbound.open_send s = none := by
              simp [Outbound.open_send, hm]
            have ho2 : Outbound.open_send
                { s with mtx := some i, pcs := upd s.pcs i Outbound.WS.s1 }
                = none := by
              simp [Outbound.open_send, upd_self, hpc]
            rw [ho1, ho2]
      | begin_header i hi hpc =>
          have hmx : s.mtx = some i := (ih1 i).mp (Or.inl hpc)
          refine ⟨fun j => ?_, ?_⟩
          · by_cases hj : j = i
            · subst hj
              simp [upd_self, hmx]
            · simp only [upd_other s.pcs i j _ hj]
              exact ih1 j
          · show Outbound.scan_log none (s.log ++ [Outbound.SendEv.beg i Outbound.Part.header]) = _
            rw [scan_log_append, ih2]
            have ho1 : Outbound.open_send s = none := by
              simp [Outbound.open_send, hmx, hpc]
            rw [ho1]
            show Outbound.scan_log (some (i, Outbound.Part.header)) [] = _
            simp [Outbound.scan_log, Outbound.open_send, hmx, upd_self]
      | end_header i hi hpc =>
          have hmx : s.mtx = some i := (ih1 i).mp (Or.inr (Or.inl hpc))
          refine ⟨fun j => ?_, ?_⟩
          · by_cases hj : j = i
            · subst hj
              simp [upd_self, hmx]
            · simp only [upd_other s.pcs i j _ hj]
              exact ih1 j
          · show Outbound.scan_log none (s.log ++ [Outbound.SendEv.fin i Outbound.Part.header]) = _
            rw [scan_log_append, ih2]
            have ho1 : Outbound.open_send s = some (i, Outbound.Part.header) := by
              simp [Outbound.open_send, hmx, hpc]
            rw [ho1]
            show (if i = i ∧ Outbound.Part.header = Outbound.Part.header then
                Outbound.scan_log none [] else none) = _
            rw [if_pos ⟨rfl, rfl⟩]
            simp [Outbound.scan_log, Outbound.open_send, hmx, upd_self]
      | release1 i hi hpc =>
          have hmx : s.mtx = some i := (ih1 i).mp (Or.inr (Or.inr (Or.inl hpc)))
          refine ⟨fun j => ?_, ?_⟩
          · by_cases hj : j = i
            · subst hj
              cases hretr : retr j <;> simp [upd_self, hretr]
            · simp only [upd_other s.pcs i j _ hj]
              rw [ih1 j, hmx]
              constructor
              · intro hsome
                exact absurd (Option.some.inj hsome) (Ne.symm hj)
              · intro hfalse; exact absurd hfalse (by simp)
          · rw [ih2]
            have ho1 : Outbound.open_send s = none := by
              simp [Outbound.open_send, hmx, hpc]
            have ho2 : Outbound.open_send
                { s with mtx := none,
                         pcs := upd s.pcs i
                           (if retr i then Outbound.WS.s4 else Outbound.WS.sdone) }
                = none := by
              simp [Outbound.open_send]
            rw [ho1, ho2]
      | acquire2 i hi hpc hm =>
          refine ⟨fun j => ?_, ?_⟩
          · by_cases hj : j = i
            · subst hj
              simp [upd_self, hm]
            · simp only [upd_other s.pcs i j _ hj]
              rw [ih1 j, hm]
              constructor
              · intro hfalse; exact absurd hfalse (by simp)
              · intro hsome
                exact absurd hsome.symm (by simp [hj])
          · rw [ih2]
            have ho1 : Outbound.open_send s = none := by
              simp [Outbound.open_send, hm]
            have ho2 : Outbound.open_send
                { s with mtx := some i, pcs := upd s.pcs i Outbound.WS.s5 }
                = none := by
              simp [Outbound.open_send, upd_self, hpc]
            rw [ho1, ho2]
      | begin_payload i hi hpc =>
          have hmx : s.mtx = some i :=
            (ih1 i).mp (Or.inr (Or.inr (Or.inr (Or.inl hpc))))
          refine ⟨fun j => ?_, ?_⟩
          · by_cases hj : j = i
            · subst hj
              simp [upd_self, hmx]
            · simp only [upd_other s.pcs i j _ hj]
              exact ih1 j
          · show Outbound.scan_log none (s.log ++ [Outbound.SendEv.beg i Outbound.Part.payload]) = _
            rw [scan_log_append, ih2]
            have ho1 : Outbound.open_send s = none := by
              simp [Outbound.open_send, hmx, hpc]
            rw [ho1]
            show Outbound.scan_log (some (i, Outbound.Part.payload)) [] = _
            simp [Outbound.scan_log, Outbound.open_send, hmx, upd_self]
      | end_payload i hi hpc =>
          have hmx : s.mtx = some i :=
            (ih1 i).mp (Or.inr (Or.inr (Or.inr (Or.inr (Or.inl hpc)))))
          refine ⟨fun j => ?_, ?_⟩
          · by_cases hj : j = i
            · subst hj
              simp [upd_self, hmx]
            · simp only [upd_other s.pcs i j _ hj]
              exact ih1 j
          · show Outbound.scan_log none (s.log ++ [Outbound.SendEv.fin i Outbound.Part.payload]) = _
            rw [scan_log_append, ih2]
            have ho1 : Outbound.open_send s = some (i, Outbound.Part.payload) := by
              simp [Outbound.open_send, hmx, hpc]
            rw [ho1]
            show (if i = i ∧ Outbound.Part.payload = Outbound.Part.payload then
                Outbound.scan_log none [] else none) = _
            rw [if_pos ⟨rfl, rfl⟩]
            simp [Outbound.scan_log, Outbound.open_send, hmx, upd_self]
      | release2 i hi hpc =>
          have hmx : s.mtx = some i :=
            (ih1 i).mp (Or.inr (Or.inr (Or.inr (Or.inr (Or.inr hpc)))))
          refine ⟨fun j => ?_, ?_⟩
          · by_cases hj : j = i
            · subst hj
              simp [upd_self]
            · simp only [upd_other s.pcs i j _ hj]
              rw [ih1 j, hmx]
              constructor
              · intro hsome
                exact absurd (Option.some.inj hsome) (Ne.symm hj)
              · intro hfalse; exact absurd hfalse (by simp)
          · rw [ih2]
            have ho1 : Outbound.open_send s = none := by
              simp [Outbound.open_send, hmx, hpc]
            have ho2 : Outbound.open_send
                { s with mtx := none, pcs := upd s.pcs i Outbound.WS.sdone }
                = none := by
              simp [Outbound.open_send]
            rw [ho1, ho2]

/-- Claim C9 amended.  Each individual send on the outbound socket is
performed while holding `conn_socket_mutex`, so sends never overlap: in
every reachable state the log is well formed (each send begins only after
the previous one finished, by the same worker that opened it).  The mutex
is however released between a RETRIEVE response header and its image
payload, so the pair is not atomic and another worker's header may be sent
between them (see the counterexample). -/
theorem outbound_sends_serialised (retr : Nat → Bool) (nw : Nat)
    (s : Outbound.OState) (h : Outbound.OReach retr nw s) :
    (Outbound.scan_log none s.log).isSome = true := by
  rw [(outbound_mutex_scan_invariant retr nw s h).2]
  rfl

/-- Witness for C9: the serialisation theorem applied to the concrete
reachable state `ob12`, whose six-event log scans successfully. -/
theorem outbound_sends_serialised_witness :
    (Outbound.scan_log none Outbound.ob12.log).isSome = true :=
  outbound_sends_serialised Outbound.retr2 2 Outbound.ob12 ob_run_reach

/-- Helper: the admission slice [k, k) is empty. -/
theorem table_spec_empty (reqs : List Gate.GReq) (k : Nat) :
    Gate.table_spec reqs k k = [] := by
  simp [Gate.table_spec]

/-- Helper: a nonempty admission slice starts with the id at its left
edge. -/
theorem table_spec_cons (reqs : List Gate.GReq) (k m : Nat) (hk : k < m)
    (hm : m ≤ reqs.length) :
    Gate.table_spec reqs k m
      = Gate.rid_at reqs k :: Gate.table_spec reqs (k + 1) m := by
  have hkl : k < reqs.length := lt_of_lt_of_le hk hm
  unfold Gate.table_spec
  rw [List.drop_eq_getElem_cons hkl,
    show m - k = (m - (k + 1)) + 1 by omega,
    List.take_succ_cons, List.map_cons]
  congr 1
  rw [Gate.rid_at, List.getD_eq_getElem reqs default hkl]

/-- Helper: appending the next admitted id extends the admission slice on
the right. -/
theorem table_spec_append (reqs : List Gate.GReq) (k m : Nat) (hk : k ≤ m)
    (hm : m < reqs.length) :
    Gate.table_spec reqs k m ++ [Gate.rid_at reqs m]
      = Gate.table_spec reqs k (m + 1) := by
  unfold Gate.table_spec
  rw [show m + 1 - k = (m - k) + 1 by omega, List.take_succ,
    List.getElem?_drop, show k + (m - k) = m by omega,
    List.getElem?_eq_getElem hm, List.map_append]
  congr 1
  simp [Gate.rid_at, List.getElem?_eq_getElem hm]

/-- Helper: the admission slice [k, m) has m - k entries. -/
theorem table_spec_length (reqs : List Gate.GReq) (k m : Nat)
    (hm : m ≤ reqs.length) :
    (Gate.table_spec reqs k m).length = m - k := by
  simp [Gate.table_spec, List.length_take, List.length_drop]
  omega

/-- Helper for C1: a position whose program counter is not pending is in
range. -/
theorem gate_pc_lt_length (reqs : List Gate.GReq) (k m : Nat)
    (s : Gate.GState) (inv : Gate.GInvAt reqs k m s) (i : Nat)
    (h : s.pcs i ≠ Gate.WPc.pending) : i < reqs.length := by
  by_contra hc
  exact h (inv.hout i (by omega))

/-- Helper for C1: moving a worker from queued to one of the inert program
counters discarded or atGate (no table, semaphore or stamp involvement)
preserves the gate invariant at the same counters. -/
theorem gate_inv_inert (reqs : List Gate.GReq) (s : Gate.GState) (i : Nat)
    (v : Gate.WPc) (hi : i < reqs.length) (hpc : s.pcs i = Gate.WPc.queued)
    (hv : v = Gate.WPc.discarded ∨ v = Gate.WPc.atGate)
    (k m : Nat) (inv : Gate.GInvAt reqs k m s) :
    Gate.GInvAt reqs k m
      { s with pcs := upd s.pcs i v, clock := s.clock + 1 } := by
  have hvp : v ≠ Gate.WPc.pending := by rcases hv with h | h <;> simp [h]
  have hvpast : Gate.past_remove v = false := by
    rcases hv with h | h <;> simp [h, Gate.past_remove]
  have hvhold : ∀ r, Gate.holds_sem r v = false := by
    intro r; rcases hv with h | h <;> simp [h, Gate.holds_sem]
  have hvcs : v ≠ Gate.WPc.inCS := by rcases hv with h | h <;> simp [h]
  have hvrem : v ≠ Gate.WPc.removedHead := by rcases hv with h | h <;> simp [h]
  have hvst : v ≠ Gate.WPc.stamped ∧ v ≠ Gate.WPc.finishedW := by
    rcases hv with h | h <;> simp [h]
  refine ⟨inv.hkm, inv.hmn, inv.htab, ?_, ?_, ?_, ?_, ?_, ?_, ?_, ?_, ?_,
    inv.hord⟩ <;> dsimp only
  · intro j hj
    by_cases hji : j = i
    · subst hji
      rw [upd_self]
      constructor
      · intro hf; exact absurd hf hvp
      · intro hm2
        have h2 := (inv.hpend j hj).mpr hm2
        rw [hpc] at h2
        exact absurd h2 (by decide)
    · rw [upd_other s.pcs i j v hji]
      exact inv.hpend j hj
  · intro j hj
    have hji : j ≠ i := by omega
    rw [upd_other s.pcs i j v hji]
    exact inv.hout j hj
  · intro j hj
    by_cases hji : j = i
    · subst hji
      rw [upd_self, hvpast]
      have h2 := inv.hpast j hj
      rw [hpc] at h2
      simpa [Gate.past_remove] using h2
    · rw [upd_other s.pcs i j v hji]
      exact inv.hpast j hj
  · intro a b ha hb
    by_cases hai : a = i
    · subst hai
      rw [upd_self, hvhold] at ha
      exact absurd ha (by decide)
    · by_cases hbi : b = i
      · subst hbi
        rw [upd_self, hvhold] at hb
        exact absurd hb (by decide)
      · rw [upd_other s.pcs i a v hai] at ha
        rw [upd_other s.pcs i b v hbi] at hb
        exact inv.hmux a b ha hb
  · rw [inv.hsem]
    constructor
    · intro hall j
      by_cases hji : j = i
      · subst hji; rw [upd_self]; exact hvhold _
      · rw [upd_other s.pcs i j v hji]; exact hall j
    · intro hall j
      by_cases hji : j = i
      · subst hji
        rw [hpc]
        simp [Gate.holds_sem]
      · have h2 := hall j
        rwa [upd_other s.pcs i j v hji] at h2
  · intro j hj
    by_cases hji : j = i
    · subst hji
      rw [upd_self] at hj
      exact absurd hj hvcs
    · rw [upd_other s.pcs i j v hji] at hj
      exact inv.hcs j hj
  · intro j hj
    by_cases hji : j = i
    · subst hji
      rw [upd_self] at hj
      exact absurd hj hvrem
    · rw [upd_other s.pcs i j v hji] at hj
      exact inv.hrem j hj
  · intro j
    by_cases hji : j = i
    · subst hji
      rw [upd_self]
      have h2 := inv.hst j
      rw [hpc] at h2
      constructor
      · intro hs
        rcases h2.mp hs with h3 | h3 <;> exact absurd h3 (by decide)
      · intro hs
        rcases hs with h3 | h3
        · exact absurd h3 hvst.1
        · exact absurd h3 hvst.2
    · rw [upd_other s.pcs i j v hji]
      exact inv.hst j
  · intro j t hjt
    have h2 := inv.hclk j t hjt
    omega

/-- Helper for C1: the dispatcher admitting the next request (appending its
id to the table) moves the invariant from admission count m to m + 1. -/
theorem gate_inv_enqueue (reqs : List Gate.GReq) (s : Gate.GState) (i : Nat)
    (hi : i < reqs.length) (hpc : s.pcs i = Gate.WPc.pending)
    (hprev : ∀ j, j < i → s.pcs j ≠ Gate.WPc.pending)
    (k m : Nat) (inv : Gate.GInvAt reqs k m s) :
    Gate.GInvAt reqs k (m + 1)
      { s with table := s.table ++ [Gate.rid_at reqs i]
               pcs := upd s.pcs i Gate.WPc.queued
               clock := s.clock + 1 } := by
  have him : i = m := by
    have h1 : m ≤ i := (inv.hpend i hi).mp hpc
    by_contra hne
    have h2 : m < i := by omega
    have h3 : s.pcs m = Gate.WPc.pending :=
      (inv.hpend m (by omega)).mpr (le_refl m)
    exact hprev m h2 h3
  subst him
  have hkm0 := inv.hkm
  refine ⟨by omega, by omega, ?_, ?_, ?_, ?_, ?_, ?_, ?_, ?_, ?_, ?_,
    inv.hord⟩ <;> dsimp only
  · rw [inv.htab]
    exact table_spec_append reqs k i inv.hkm hi
  · intro j hj
    by_cases hji : j = i
    · subst hji
      rw [upd_self]
      constructor
      · intro hf; exact absurd hf (by decide)
      · intro hm2; omega
    · rw [upd_other s.pcs i j _ hji, inv.hpend j hj]
      constructor <;> (intro h2; omega)
  · intro j hj
    have hji : j ≠ i := by omega
    rw [upd_other s.pcs i j _ hji]
    exact inv.hout j hj
  · intro j hj
    by_cases hji : j = i
    · subst hji
      rw [upd_self]
      have h2 := inv.hpast j hj
      rw [hpc] at h2
      constructor
      · intro hf; exact absurd hf (by decide)
      · intro hlt; exact absurd (h2.mpr hlt) (by decide)
    · rw [upd_other s.pcs i j _ hji]
      exact inv.hpast j hj
  · intro a b ha hb
    by_cases hai : a = i
    · subst hai
      rw [upd_self] at ha
      simp [Gate.holds_sem] at ha
    · by_cases hbi : b = i
      · subst hbi
        rw [upd_self] at hb
        simp [Gate.holds_sem] at hb
      · rw [upd_other s.pcs i a _ hai] at ha
        rw [upd_other s.pcs i b _ hbi] at hb
        exact inv.hmux a b ha hb
  · rw [inv.hsem]
    constructor
    · intro hall j
      by_cases hji : j = i
      · subst hji; rw [upd_self]; simp [Gate.holds_sem]
      · rw [upd_other s.pcs i j _ hji]; exact hall j
    · intro hall j
      by_cases hji : j = i
      · subst hji; rw [hpc]; simp [Gate.holds_sem]
      · have h2 := hall j
        rwa [upd_other s.pcs i j _ hji] at h2
  · intro j hj
    by_cases hji : j = i
    · subst hji
      rw [upd_self] at hj
      exact absurd hj (by decide)
    · rw [upd_other s.pcs i j _ hji] at hj
      exact inv.hcs j hj
  · intro j hj
    by_cases hji : j = i
    · subst hji
      rw [upd_self] at hj
      exact absurd hj (by decide)
    · rw [upd_other s.pcs i j _ hji] at hj
      exact inv.hrem j hj
  · intro j
    by_cases hji : j = i
    · subst hji
      rw [upd_self]
      have h2 := inv.hst j
      rw [hpc] at h2
      constructor
      · intro hs
        rcases h2.mp hs with h3 | h3 <;> exact absurd h3 (by decide)
      · intro hs
        rcases hs with h3 | h3 <;> exact absurd h3 (by decide)
    · rw [upd_other s.pcs i j _ hji]
      exact inv.hst j
  · intro j t hjt
    have h2 := inv.hclk j t hjt
    omega

/-- Helper for C1: a worker acquiring the free image semaphore preserves
the invariant. -/
theorem gate_inv_acquire (reqs : List Gate.GReq) (s : Gate.GState) (i : Nat)
    (hi : i < reqs.length) (hpc : s.pcs i = Gate.WPc.atGate)
    (hsem : s.sem = true) (k m : Nat) (inv : Gate.GInvAt reqs k m s) :
    Gate.GInvAt reqs k m
      { s with sem := false
               pcs := upd s.pcs i Gate.WPc.checking
               clock := s.clock + 1 } := by
  have hnone : ∀ j, Gate.holds_sem (reqs.getD j default) (s.pcs j) = false :=
    inv.hsem.mp hsem
  refine ⟨inv.hkm, inv.hmn, inv.htab, ?_, ?_, ?_, ?_, ?_, ?_, ?_, ?_, ?_,
    inv.hord⟩ <;> dsimp only
  · intro j hj
    by_cases hji : j = i
    · subst hji
      rw [upd_self]
      constructor
      · intro hf; exact absurd hf (by decide)
      · intro hm2
        have h2 := (inv.hpend j hj).mpr hm2
        rw [hpc] at h2
        exact absurd h2 (by decide)
    · rw [upd_other s.pcs i j _ hji]
      exact inv.hpend j hj
  · intro j hj
    have hji : j ≠ i := by omega
    rw [upd_other s.pcs i j _ hji]
    exact inv.hout j hj
  · intro j hj
    by_cases hji : j = i
    · subst hji
      rw [upd_self]
      have h2 := inv.hpast j hj
      rw [hpc] at h2
      constructor
      · intro hf; exact absurd hf (by decide)
      · intro hlt; exact absurd (h2.mpr hlt) (by decide)
    · rw [upd_other s.pcs i j _ hji]
      exact inv.hpast j hj
  · intro a b ha hb
    by_cases hai : a = i
    · by_cases hbi : b = i
      · rw [hai, hbi]
      · rw [upd_other s.pcs i b _ hbi, hnone b] at hb
        exact absurd hb (by decide)
    · rw [upd_other s.pcs i a _ hai, hnone a] at ha
      exact absurd ha (by decide)
  · constructor
    · intro hf; exact absurd hf (by decide)
    · intro hall
      have h2 := hall i
      rw [upd_self] at h2
      simp [Gate.holds_sem] at h2
  · intro j hj
    by_cases hji : j = i
    · subst hji
      rw [upd_self] at hj
      exact absurd hj (by decide)
    · rw [upd_other s.pcs i j _ hji] at hj
      exact inv.hcs j hj
  · intro j hj
    by_cases hji : j = i
    · subst hji
      rw [upd_self] at hj
      exact absurd hj (by decide)
    · rw [upd_other s.pcs i j _ hji] at hj
      exact inv.hrem j hj
  · intro j
    by_cases hji : j = i
    · subst hji
      rw [upd_self]
      have h2 := inv.hst j
      rw [hpc] at h2
      constructor
      · intro hs
        rcases h2.mp hs with h3 | h3 <;> exact absurd h3 (by decide)
      · intro hs
        rcases hs with h3 | h3 <;> exact absurd h3 (by decide)
    · rw [upd_other s.pcs i j _ hji]
      exact inv.hst j
  · intro j t hjt
    have h2 := inv.hclk j t hjt
    omega

/-- Helper for C1: a worker finding a different id at the head posts the
semaphore and returns to the gate; the invariant is preserved. -/
theorem gate_inv_spin (reqs : List Gate.GReq) (s : Gate.GState) (i : Nat)
    (hi : i < reqs.length) (hpc : s.pcs i = Gate.WPc.checking)
    (k m : Nat) (inv : Gate.GInvAt reqs k m s) :
    Gate.GInvAt reqs k m
      { s with sem := true
               pcs := upd s.pcs i Gate.WPc.atGate
               clock := s.clock + 1 } := by
  have hold_i : Gate.holds_sem (reqs.getD i default) (s.pcs i) = true := by
    rw [hpc]; rfl
  refine ⟨inv.hkm, inv.hmn, inv.htab, ?_, ?_, ?_, ?_, ?_, ?_, ?_, ?_, ?_,
    inv.hord⟩ <;> dsimp only
  · intro j hj
    by_cases hji : j = i
    · subst hji
      rw [upd_self]
      constructor
      · intro hf; exact absurd hf (by decide)
      · intro hm2
        have h2 := (inv.hpend j hj).mpr hm2
        rw [hpc] at h2
        exact absurd h2 (by decide)
    · rw [upd_other s.pcs i j _ hji]
      exact inv.hpend j hj
  · intro j hj
    have hji : j ≠ i := by omega
    rw [upd_other s.pcs i j _ hji]
    exact inv.hout j hj
  · intro j hj
    by_cases hji : j = i
    · subst hji
      rw [upd_self]
      have h2 := inv.hpast j hj
      rw [hpc] at h2
      constructor
      · intro hf; exact absurd hf (by decide)
      · intro hlt; exact absurd (h2.mpr hlt) (by decide)
    · rw [upd_other s.pcs i j _ hji]
      exact inv.hpast j hj
  · intro a b ha hb
    by_cases hai : a = i
    · subst hai
      rw [upd_self] at ha
      simp [Gate.holds_sem] at ha
    · by_cases hbi : b = i
      · subst hbi
        rw [upd_self] at hb
        simp [Gate.holds_sem] at hb
      · rw [upd_other s.pcs i a _ hai] at ha
        rw [upd_other s.pcs i b _ hbi] at hb
        exact inv.hmux a b ha hb
  · constructor
    · intro _ j
      by_cases hji : j = i
      · subst hji
        rw [upd_self]
        rfl
      · rw [upd_other s.pcs i j _ hji]
        cases hcase : Gate.holds_sem (reqs.getD j default) (s.pcs j) with
        | false => rfl
        | true => exact absurd (inv.hmux j i hcase hold_i) hji
    · intro _
      rfl
  · intro j hj
    by_cases hji : j = i
    · subst hji
      rw [upd_self] at hj
      exact absurd hj (by decide)
    · rw [upd_other s.pcs i j _ hji] at hj
      exact inv.hcs j hj
  · intro j hj
    by_cases hji : j = i
    · subst hji
      rw [upd_self] at hj
      exact absurd hj (by decide)
    · rw [upd_other s.pcs i j _ hji] at hj
      exact inv.hrem j hj
  · intro j
    by_cases hji : j = i
    · subst hji
      rw [upd_self]
      have h2 := inv.hst j
      rw [hpc] at h2
      constructor
      · intro hs
        rcases h2.mp hs with h3 | h3 <;> exact absurd h3 (by decide)
      · intro hs
        rcases hs with h3 | h3 <;> exact absurd h3 (by decide)
    · rw [upd_other s.pcs i j _ hji]
      exact inv.hst j
  · intro j t hjt
    have h2 := inv.hclk j t hjt
    omega

/-- Helper for C1: a worker passing the head test (its id is at the head of
the table) sits exactly at removal position k; the step into the critical
section preserves the invariant.  Request ids are assumed pairwise
distinct. -/
theorem gate_inv_pass_check (reqs : List Gate.GReq)
    (hinj : ∀ a, a < reqs.length → ∀ b, b < reqs.length →
      Gate.rid_at reqs a = Gate.rid_at reqs b → a = b)
    (s : Gate.GState) (i : Nat)
    (hi : i < reqs.length) (hpc : s.pcs i = Gate.WPc.checking)
    (hhead : s.table = [] ∨ s.table.head? = some (Gate.rid_at reqs i))
    (k m : Nat) (inv : Gate.GInvAt reqs k m s) :
    Gate.GInvAt reqs k m
      { s with pcs := upd s.pcs i Gate.WPc.inCS, clock := s.clock + 1 } := by
  have hold_i : Gate.holds_sem (reqs.getD i default) (s.pcs i) = true := by
    rw [hpc]; rfl
  have him : i < m := by
    by_contra h2
    have h3 := (inv.hpend i hi).mpr (by omega)
    rw [hpc] at h3
    exact absurd h3 (by decide)
  have hik : k ≤ i := by
    by_contra h2
    have h3 := (inv.hpast i hi).mpr (by omega)
    rw [hpc] at h3
    exact absurd h3 (by decide)
  have hkm2 : k < m := by omega
  have htabc := table_spec_cons reqs k m hkm2 inv.hmn
  have hik2 : i = k := by
    rcases hhead with he | hh
    · rw [inv.htab, htabc] at he
      exact absurd he (by simp)
    · rw [inv.htab, htabc] at hh
      simp at hh
      exact (hinj k (by omega) i hi hh).symm
  have hsame : ∀ j,
      Gate.holds_sem (reqs.getD j default) (upd s.pcs i Gate.WPc.inCS j)
        = Gate.holds_sem (reqs.getD j default) (s.pcs j) := by
    intro j
    by_cases hji : j = i
    · subst hji
      rw [upd_self, hpc]
      rfl
    · rw [upd_other s.pcs i j _ hji]
  refine ⟨inv.hkm, inv.hmn, inv.htab, ?_, ?_, ?_, ?_, ?_, ?_, ?_, ?_, ?_,
    inv.hord⟩ <;> dsimp only
  · intro j hj
    by_cases hji : j = i
    · subst hji
      rw [upd_self]
      constructor
      · intro hf; exact absurd hf (by decide)
      · intro hm2; omega
    · rw [upd_other s.pcs i j _ hji]
      exact inv.hpend j hj
  · intro j hj
    have hji : j ≠ i := by omega
    rw [upd_other s.pcs i j _ hji]
    exact inv.hout j hj
  · intro j hj
    by_cases hji : j = i
    · subst hji
      rw [upd_self]
      constructor
      · intro hf; exact absurd hf (by decide)
      · intro hlt; omega
    · rw [upd_other s.pcs i j _ hji]
      exact inv.hpast j hj
  · intro a b ha hb
    rw [hsame a] at ha
    rw [hsame b] at hb
    exact inv.hmux a b ha hb
  · rw [inv.hsem]
    exact ⟨fun hall j => (hsame j).trans (hall j),
      fun hall j => (hsame j).symm.trans (hall j)⟩
  · intro j hj
    by_cases hji : j = i
    · subst hji
      exact hik2
    · rw [upd_other s.pcs i j _ hji] at hj
      exact inv.hcs j hj
  · intro j hj
    by_cases hji : j = i
    · subst hji
      rw [upd_self] at hj
      exact absurd hj (by decide)
    · rw [upd_other s.pcs i j _ hji] at hj
      exact inv.hrem j hj
  · intro j
    by_cases hji : j = i
    · subst hji
      rw [upd_self]
      have h2 := inv.hst j
      rw [hpc] at h2
      constructor
      · intro hs
        rcases h2.mp hs with h3 | h3 <;> exact absurd h3 (by decide)
      · intro hs
        rcases hs with h3 | h3 <;> exact absurd h3 (by decide)
    · rw [upd_other s.pcs i j _ hji]
      exact inv.hst j
  · intro j t hjt
    have h2 := inv.hclk j t hjt
    omega

/-- Helper for C1: the critical-section worker removing the head of the
table moves the invariant from removal count k to k + 1. -/
theorem gate_inv_remove_head (reqs : List Gate.GReq) (s : Gate.GState)
    (i : Nat) (hi : i < reqs.length) (hpc : s.pcs i = Gate.WPc.inCS)
    (k m : Nat) (inv : Gate.GInvAt reqs k m s) :
    Gate.GInvAt reqs (k + 1) m
      { s with table := s.table.tail
               pcs := upd s.pcs i Gate.WPc.removedHead
               clock := s.clock + 1 } := by
  have hold_i : Gate.holds_sem (reqs.getD i default) (s.pcs i) = true := by
    rw [hpc]; rfl
  have hik : i = k := inv.hcs i hpc
  have him : i < m := by
    by_contra h2
    have h3 := (inv.hpend i hi).mpr (by omega)
    rw [hpc] at h3
    exact absurd h3 (by decide)
  have hkm2 : k < m := by omega
  have htabc := table_spec_cons reqs k m hkm2 inv.hmn
  have hsame : ∀ j,
      Gate.holds_sem (reqs.getD j default)
          (upd s.pcs i Gate.WPc.removedHead j)
        = Gate.holds_sem (reqs.getD j default) (s.pcs j) := by
    intro j
    by_cases hji : j = i
    · subst hji
      rw [upd_self, hpc]
      rfl
    · rw [upd_other s.pcs i j _ hji]
  have hmn0 := inv.hmn
  refine ⟨by omega, by omega, ?_, ?_, ?_, ?_, ?_, ?_, ?_, ?_, ?_, ?_,
    inv.hord⟩ <;> dsimp only
  · rw [inv.htab, htabc]
    rfl
  · intro j hj
    by_cases hji : j = i
    · subst hji
      rw [upd_self]
      constructor
      · intro hf; exact absurd hf (by decide)
      · intro hm2; omega
    · rw [upd_other s.pcs i j _ hji]
      exact inv.hpend j hj
  · intro j hj
    have hji : j ≠ i := by omega
    rw [upd_other s.pcs i j _ hji]
    exact inv.hout j hj
  · intro j hj
    by_cases hji : j = i
    · subst hji
      rw [upd_self]
      constructor
      · intro _; omega
      · intro _; rfl
    · rw [upd_other s.pcs i j _ hji]
      rw [inv.hpast j hj]
      constructor <;> (intro h2; omega)
  · intro a b ha hb
    rw [hsame a] at ha
    rw [hsame b] at hb
    exact inv.hmux a b ha hb
  · rw [inv.hsem]
    exact ⟨fun hall j => (hsame j).trans (hall j),
      fun hall j => (hsame j).symm.trans (hall j)⟩
  · intro j hj
    by_cases hji : j = i
    · subst hji
      rw [upd_self] at hj
      exact absurd hj (by decide)
    · rw [upd_other s.pcs i j _ hji] at hj
      have := inv.hcs j hj
      omega
  · intro j hj
    by_cases hji : j = i
    · subst hji
      omega
    · rw [upd_other s.pcs i j _ hji] at hj
      have hold_j : Gate.holds_sem (reqs.getD j default) (s.pcs j) = true := by
        rw [hj]; rfl
      exact absurd (inv.hmux j i hold_j hold_i) hji
  · intro j
    by_cases hji : j = i
    · subst hji
      rw [upd_self]
      have h2 := inv.hst j
      rw [hpc] at h2
      constructor
      · intro hs
        rcases h2.mp hs with h3 | h3 <;> exact absurd h3 (by decide)
      · intro hs
        rcases hs with h3 | h3 <;> exact absurd h3 (by decide)
    · rw [upd_other s.pcs i j _ hji]
      exact inv.hst j
  · intro j t hjt
    have h2 := inv.hclk j t hjt
    omega

/-- Helper for C1: the worker stamping its start timestamp records the
current logical clock; admission-ordering of the stamps is preserved
because every later-admitted request is still unstamped. -/
theorem gate_inv_stamp_start (reqs : List Gate.GReq) (s : Gate.GState)
    (i : Nat) (hi : i < reqs.length) (hpc : s.pcs i = Gate.WPc.removedHead)
    (k m : Nat) (inv : Gate.GInvAt reqs k m s) :
    Gate.GInvAt reqs k m
      { s with starts := upd s.starts i (some s.clock)
               pcs := upd s.pcs i Gate.WPc.stamped
               clock := s.clock + 1 } := by
  have hold_i : Gate.holds_sem (reqs.getD i default) (s.pcs i) = true := by
    rw [hpc]; rfl
  have hkrem : k = i + 1 := inv.hrem i hpc
  have hsame : ∀ j,
      Gate.holds_sem (reqs.getD j default) (upd s.pcs i Gate.WPc.stamped j)
        = Gate.holds_sem (reqs.getD j default) (s.pcs j) := by
    intro j
    by_cases hji : j = i
    · subst hji
      rw [upd_self, hpc]
      rfl
    · rw [upd_other s.pcs i j _ hji]
  refine ⟨inv.hkm, inv.hmn, inv.htab, ?_, ?_, ?_, ?_, ?_, ?_, ?_, ?_, ?_,
    ?_⟩ <;> dsimp only
  · intro j hj
    by_cases hji : j = i
    · subst hji
      rw [upd_self]
      constructor
      · intro hf; exact absurd hf (by decide)
      · intro hm2
        have h2 := (inv.hpend j hj).mpr hm2
        rw [hpc] at h2
        exact absurd h2 (by decide)
    · rw [upd_other s.pcs i j _ hji]
      exact inv.hpend j hj
  · intro j hj
    have hji : j ≠ i := by omega
    rw [upd_other s.pcs i j _ hji]
    exact inv.hout j hj
  · intro j hj
    by_cases hji : j = i
    · subst hji
      rw [upd_self]
      constructor
      · intro _; omega
      · intro _; rfl
    · rw [upd_other s.pcs i j _ hji]
      exact inv.hpast j hj
  · intro a b ha hb
    rw [hsame a] at ha
    rw [hsame b] at hb
    exact inv.hmux a b ha hb
  · rw [inv.hsem]
    exact ⟨fun hall j => (hsame j).trans (hall j),
      fun hall j => (hsame j).symm.trans (hall j)⟩
  · intro j hj
    by_cases hji : j = i
    · subst hji
      rw [upd_self] at hj
      exact absurd hj (by decide)
    · rw [upd_other s.pcs i j _ hji] at hj
      exact inv.hcs j hj
  · intro j hj
    by_cases hji : j = i
    · subst hji
      rw [upd_self] at hj
      exact absurd hj (by decide)
    · rw [upd_other s.pcs i j _ hji] at hj
      exact inv.hrem j hj
  · intro j
    by_cases hji : j = i
    · subst hji
      rw [upd_self, upd_self]
      simp
    · rw [upd_other s.pcs i j _ hji, upd_other s.starts i j _ hji]
      exact inv.hst j
  · intro j t hjt
    by_cases hji : j = i
    · subst hji
      rw [upd_self] at hjt
      have : t = s.clock := (Option.some.inj hjt).symm
      omega
    · rw [upd_other s.starts i j _ hji] at hjt
      have h2 := inv.hclk j t hjt
      omega
  · intro a b ta tb hab ha hb
    by_cases hbi : b = i
    · subst hbi
      rw [upd_self] at hb
      have htb : tb = s.clock := (Option.some.inj hb).symm
      have hai : a ≠ b := by omega
      rw [upd_other s.starts b a _ hai] at ha
      have h2 := inv.hclk a ta ha
      omega
    · by_cases hai : a = i
      · subst hai
        rw [upd_other s.starts a b _ hbi] at hb
        have hbsome : (s.starts b).isSome = true := by rw [hb]; rfl
        have hbpc := (inv.hst b).mp hbsome
        have hblen : b < reqs.length := by
          refine gate_pc_lt_length reqs k m s inv b ?_
          rcases hbpc with h2 | h2 <;> rw [h2] <;> decide
        have hbpast : Gate.past_remove (s.pcs b) = true := by
          rcases hbpc with h2 | h2 <;> rw [h2] <;> rfl
        have hbk : b < k := (inv.hpast b hblen).mp hbpast
        omega
      · rw [upd_other s.starts i a _ hai] at ha
        rw [upd_other s.starts i b _ hbi] at hb
        exact inv.hord a b ta tb hab ha hb

/-- Helper for C1: the worker finishing (publish and post) releases the
semaphore exactly when its request did not reassign img_id; the invariant
is preserved either way. -/
theorem gate_inv_finish_up (reqs : List Gate.GReq) (s : Gate.GState)
    (i : Nat) (hi : i < reqs.length) (hpc : s.pcs i = Gate.WPc.stamped)
    (k m : Nat) (inv : Gate.GInvAt reqs k m s) :
    Gate.GInvAt reqs k m
      { s with sem := if (reqs.getD i default).releases_gate then true
                      else s.sem
               pcs := upd s.pcs i Gate.WPc.finishedW
               clock := s.clock + 1 } := by
  have hold_i : Gate.holds_sem (reqs.getD i default) (s.pcs i) = true := by
    rw [hpc]; rfl
  refine ⟨inv.hkm, inv.hmn, inv.htab, ?_, ?_, ?_, ?_, ?_, ?_, ?_, ?_, ?_,
    inv.hord⟩ <;> dsimp only
  · intro j hj
    by_cases hji : j = i
    · subst hji
      rw [upd_self]
      constructor
      · intro hf; exact absurd hf (by decide)
      · intro hm2
        have h2 := (inv.hpend j hj).mpr hm2
        rw [hpc] at h2
        exact absurd h2 (by decide)
    · rw [upd_other s.pcs i j _ hji]
      exact inv.hpend j hj
  · intro j hj
    have hji : j ≠ i := by omega
    rw [upd_other s.pcs i j _ hji]
    exact inv.hout j hj
  · intro j hj
    by_cases hji : j = i
    · subst hji
      rw [upd_self]
      have h2 := inv.hpast j hj
      rw [hpc] at h2
      constructor
      · intro _
        exact h2.mp rfl
      · intro _; rfl
    · rw [upd_other s.pcs i j _ hji]
      exact inv.hpast j hj
  · intro a b ha hb
    by_cases hai : a = i
    · by_cases hbi : b = i
      · rw [hai, hbi]
      · rw [upd_other s.pcs i b _ hbi] at hb
        exact absurd (inv.hmux b i hb hold_i) hbi
    · rw [upd_other s.pcs i a _ hai] at ha
      exact absurd (inv.hmux a i ha hold_i) hai
  · cases hrel : (reqs.getD i default).releases_gate with
    | true =>
        rw [if_pos rfl]
        constructor
        · intro _ j
          by_cases hji : j = i
          · subst hji
            rw [upd_self]
            have he : Gate.holds_sem (reqs.getD j default) Gate.WPc.finishedW
                = !(reqs.getD j default).releases_gate := rfl
            rw [he, hrel]
            rfl
          · rw [upd_other s.pcs i j _ hji]
            cases hcase : Gate.holds_sem (reqs.getD j default) (s.pcs j) with
            | false => rfl
            | true => exact absurd (inv.hmux j i hcase hold_i) hji
        · intro _; rfl
    | false =>
        rw [if_neg (by decide)]
        rw [inv.hsem]
        have hsame : ∀ j,
            Gate.holds_sem (reqs.getD j default)
                (upd s.pcs i Gate.WPc.finishedW j)
              = Gate.holds_sem (reqs.getD j default) (s.pcs j) := by
          intro j
          by_cases hji : j = i
          · subst hji
            rw [upd_self, hpc]
            have he : Gate.holds_sem (reqs.getD j default) Gate.WPc.finishedW
                = !(reqs.getD j default).releases_gate := rfl
            rw [he, hrel]
            rfl
          · rw [upd_other s.pcs i j _ hji]
        exact ⟨fun hall j => (hsame j).trans (hall j),
          fun hall j => (hsame j).symm.trans (hall j)⟩
  · intro j hj
    by_cases hji : j = i
    · subst hji
      rw [upd_self] at hj
      exact absurd hj (by decide)
    · rw [upd_other s.pcs i j _ hji] at hj
      exact inv.hcs j hj
  · intro j hj
    by_cases hji : j = i
    · subst hji
      rw [upd_self] at hj
      exact absurd hj (by decide)
    · rw [upd_other s.pcs i j _ hji] at hj
      exact inv.hrem j hj
  · intro j
    by_cases hji : j = i
    · subst hji
      rw [upd_self]
      have h2 := inv.hst j
      rw [hpc] at h2
      constructor
      · intro hs; exact Or.inr rfl
      · intro _
        exact h2.mpr (Or.inl rfl)
    · rw [upd_other s.pcs i j _ hji]
      exact inv.hst j
  · intro j t hjt
    have h2 := inv.hclk j t hjt
    omega

/-- Helper for C1: the initial state satisfies the invariant at counts
(0, 0). -/
theorem gate_inv_init (reqs : List Gate.GReq) :
    Gate.GInvAt reqs 0 0 Gate.gInit := by
  refine ⟨le_refl 0, Nat.zero_le _, (table_spec_empty reqs 0).symm,
    ?_, ?_, ?_, ?_, ?_, ?_, ?_, ?_, ?_, ?_⟩ <;> dsimp only [Gate.gInit]
  · intro i hi
    constructor
    · intro _; omega
    · intro _; rfl
  · intro i hi; rfl
  · intro i hi
    constructor
    · intro hf; exact absurd hf (by decide)
    · intro hf; omega
  · intro a b ha hb
    have h2 : Gate.holds_sem (reqs.getD a default) Gate.WPc.pending
        = false := rfl
    rw [h2] at ha
    exact absurd ha (by decide)
  · constructor
    · intro _ i; rfl
    · intro _; rfl
  · intro i hj; exact absurd hj (by decide)
  · intro i hj; exact absurd hj (by decide)
  · intro i
    constructor
    · intro hs; exact absurd hs (by decide)
    · intro hs; rcases hs with h | h <;> exact absurd h (by decide)
  · intro i t ht; simp at ht
  · intro a b ta tb hab ha hb; simp at ha

/-- Helper for C1: every gate step preserves the invariant (request ids
assumed pairwise distinct). -/
theorem gate_inv_preserved (reqs : List Gate.GReq)
    (hinj : ∀ a, a < reqs.length → ∀ b, b < reqs.length →
      Gate.rid_at reqs a = Gate.rid_at reqs b → a = b)
    (s s2 : Gate.GState) (hstep : Gate.GStep reqs s s2)
    (hinv : Gate.GInv reqs s) : Gate.GInv reqs s2 := by
  obtain ⟨k, m, inv⟩ := hinv
  cases hstep with
  | enqueue i hi hpc hprev =>
      exact ⟨k, m + 1, gate_inv_enqueue reqs s i hi hpc hprev k m inv⟩
  | drop_item i hi hpc =>
      exact ⟨k, m, gate_inv_inert reqs s i _ hi hpc (Or.inl rfl) k m inv⟩
  | to_gate i hi hpc =>
      exact ⟨k, m, gate_inv_inert reqs s i _ hi hpc (Or.inr rfl) k m inv⟩
  | acquire i hi hpc hsem =>
      exact ⟨k, m, gate_inv_acquire reqs s i hi hpc hsem k m inv⟩
  | pass_check i hi hpc hhead =>
      exact ⟨k, m, gate_inv_pass_check reqs hinj s i hi hpc hhead k m inv⟩
  | spin i hi hpc hhead =>
      exact ⟨k, m, gate_inv_spin reqs s i hi hpc k m inv⟩
  | remove_head i hi hpc =>
      exact ⟨k + 1, m, gate_inv_remove_head reqs s i hi hpc k m inv⟩
  | stamp_start i hi hpc =>
      exact ⟨k, m, gate_inv_stamp_start reqs s i hi hpc k m inv⟩
  | finish_up i hi hpc =>
      exact ⟨k, m, gate_inv_finish_up reqs s i hi hpc k m inv⟩

/-- Helper for C1: the invariant holds in every reachable gate state. -/
theorem gate_inv_reachable (reqs : List Gate.GReq)
    (hinj : ∀ a, a < reqs.length → ∀ b, b < reqs.length →
      Gate.rid_at reqs a = Gate.rid_at reqs b → a = b)
    (s : Gate.GState) (h : Gate.GReach reqs s) : Gate.GInv reqs s := by
  induction h with
  | init => exact ⟨0, 0, gate_inv_init reqs⟩
  | step s s2 hr hstep ih => exact gate_inv_preserved reqs hinj s s2 hstep ih

/-- Claim C1.  For two requests targeting the same image, admitted in the
order given by the list `reqs` (distinct request ids), every reachable
state of the per-image gate protocol satisfies: whenever both requests
have been stamped with start timestamps, the earlier-admitted one carries
the strictly smaller stamp — per-image execution order equals per-image
admission order, enforced by the head test of the wait_op table under the
image semaphore. -/
theorem per_image_start_order (reqs : List Gate.GReq)
    (hinj : ∀ a, a < reqs.length → ∀ b, b < reqs.length →
      Gate.rid_at reqs a = Gate.rid_at reqs b → a = b)
    (s : Gate.GState) (hreach : Gate.GReach reqs s)
    (i j ti tj : Nat) (hij : i < j)
    (hi : s.starts i = some ti) (hj : s.starts j = some tj) : ti < tj := by
  obtain ⟨k, m, inv⟩ := gate_inv_reachable reqs hinj s hreach
  exact inv.hord i j ti tj hij hi hj

/-- Helper for C1: the concrete two-request run gs0 .. gs13 is reachable. -/
theorem gate_run_reach : Gate.GReach Gate.gr2 Gate.gs13 := by
  have h0 : Gate.GReach Gate.gr2 Gate.gs0 := Gate.GReach.init
  have h1 : Gate.GReach Gate.gr2 Gate.gs1 :=
    Gate.GReach.step _ _ h0
      (Gate.GStep.enqueue Gate.gs0 0 (by decide) (by decide) (by decide))
  have h2 : Gate.GReach Gate.gr2 Gate.gs2 :=
    Gate.GReach.step _ _ h1
      (Gate.GStep.enqueue Gate.gs1 1 (by decide) (by decide) (by decide))
  have h3 : Gate.GReach Gate.gr2 Gate.gs3 :=
    Gate.GReach.step _ _ h2
      (Gate.GStep.to_gate Gate.gs2 0 (by decide) (by decide))
  have h4 : Gate.GReach Gate.gr2 Gate.gs4 :=
    Gate.GReach.step _ _ h3
      (Gate.GStep.acquire Gate.gs3 0 (by decide) (by decide) (by decide))
  have h5 : Gate.GReach Gate.gr2 Gate.gs5 :=
    Gate.GReach.step _ _ h4
      (Gate.GStep.pass_check Gate.gs4 0 (by decide) (by decide) (by decide))
  have h6 : Gate.GReach Gate.gr2 Gate.gs6 :=
    Gate.GReach.step _ _ h5
      (Gate.GStep.remove_head Gate.gs5 0 (by decide) (by decide))
  have h7 : Gate.GReach Gate.gr2 Gate.gs7 :=
    Gate.GReach.step _ _ h6
      (Gate.GStep.stamp_start Gate.gs6 0 (by decide) (by decide))
  have h8 : Gate.GReach Gate.gr2 Gate.gs8 :=
    Gate.GReach.step _ _ h7
      (Gate.GStep.finish_up Gate.gs7 0 (by decide) (by decide))
  have h9 : Gate.GReach Gate.gr2 Gate.gs9 :=
    Gate.GReach.step _ _ h8
      (Gate.GStep.to_gate Gate.gs8 1 (by decide) (by decide))
  have h10 : Gate.GReach Gate.gr2 Gate.gs10 :=
    Gate.GReach.step _ _ h9
      (Gate.GStep.acquire Gate.gs9 1 (by decide) (by decide) (by decide))
  have h11 : Gate.GReach Gate.gr2 Gate.gs11 :=
    Gate.GReach.step _ _ h10
      (Gate.GStep.pass_check Gate.gs10 1 (by decide) (by decide) (by decide))
  have h12 : Gate.GReach Gate.gr2 Gate.gs12 :=
    Gate.GReach.step _ _ h11
      (Gate.GStep.remove_head Gate.gs11 1 (by decide) (by decide))
  exact Gate.GReach.step _ _ h12
    (Gate.GStep.stamp_start Gate.gs12 1 (by decide) (by decide))

/-- Witness for C1: on the concrete two-request run, request 0 is stamped
at logical time 6 and request 1 at logical time 12; the theorem yields
6 < 12. -/
theorem per_image_start_order_witness :
    Gate.gs13.starts 0 = some 6 ∧ Gate.gs13.starts 1 = some 12 ∧
    (6 : Nat) < 12 :=
  ⟨by decide, by decide,
   per_image_start_order Gate.gr2 (by decide) Gate.gs13 gate_run_reach
     0 1 6 12 (by decide) (by decide) (by decide)⟩
